import Mathlib

/-!
# Verification of the `generatesnippet` extension (`src/extension.ts`)

This file gives a shallow embedding in Lean 4 of the snippet-generation
program and proves the specified properties about it.

Conventions:
* JavaScript strings are modelled as `String` / `List Char`.
* `undefined`/`null` results of prompts are modelled by `Option String`
  (`none` = cancelled); JavaScript truthiness of a string is "non-empty".
* The filesystem is a pair of functions `dirs : String → Bool` and
  `files : String → Option String`.
* The external `jsonc-parser` library (the "parse mechanism") is not part of
  the repository; where a claim depends only on how the repository *uses* its
  result, the mechanism's outcome is an abstract parameter (`MechResult`);
  where a claim is about lenient parsing itself, the mechanism is modelled
  from the spec (see `jsoncParse` below).
-/

namespace GenSnippet

/-! ## Generic string utilities (models of the JavaScript operations used) -/

/-- Model of JavaScript `String.prototype.split(sep)` for a single-character
separator: `"".split(sep) = [""]`, and the number of pieces is the number of
separators plus one. -/
def splitOnChar (sep : Char) : List Char → List (List Char)
  | [] => [[]]
  | c :: rest =>
    if c = sep then [] :: splitOnChar sep rest
    else
      match splitOnChar sep rest with
      | [] => [[c]]
      | l :: ls => (c :: l) :: ls

/-- `text.split('\n')`. -/
def splitNl (cs : List Char) : List (List Char) := splitOnChar '\n' cs

theorem splitOnChar_ne_nil (sep : Char) (cs : List Char) : splitOnChar sep cs ≠ [] := by
  cases cs with
  | nil => simp [splitOnChar]
  | cons c rest =>
    simp only [splitOnChar]
    split
    · simp
    · split
      · simp
      · simp

/-- The number of pieces `split` returns is the number of separators plus one. -/
theorem length_splitOnChar (sep : Char) (cs : List Char) :
    (splitOnChar sep cs).length = cs.count sep + 1 := by
  induction cs with
  | nil => simp [splitOnChar]
  | cons c rest ih =>
    simp only [splitOnChar]
    by_cases h : c = sep
    · subst h
      simp [List.count_cons, ih]
    · rw [if_neg h]
      have hne := splitOnChar_ne_nil sep rest
      cases hsp : splitOnChar sep rest with
      | nil => exact absurd hsp hne
      | cons l ls =>
        simp only [List.length_cons]
        have := ih
        rw [hsp] at this
        simp only [List.length_cons] at this
        simp [List.count_cons, h, this]

/-- Model of JavaScript `Array.prototype.join(sep)`. -/
def joinSep (sep : String) : List String → String
  | [] => ""
  | [s] => s
  | s :: rest => s ++ sep ++ joinSep sep rest

/-- Characters stripped by JavaScript `String.prototype.trim()` (the
whitespace characters that actually occur in practice; the full JS set also
contains more exotic Unicode space separators, which behave identically). -/
def isTrimWs (c : Char) : Bool :=
  c = ' ' || c = '\t' || c = '\n' || c = '\r' ||
  c = Char.ofNat 11 || c = Char.ofNat 12 || c = Char.ofNat 160 || c = Char.ofNat 65279

/-- Model of JavaScript `String.prototype.trim()`. -/
def trimJS (cs : List Char) : List Char :=
  ((cs.dropWhile isTrimWs).reverse.dropWhile isTrimWs).reverse

/-! ## Text Escaper (`escapeSnippetText`, `src/extension.ts:103-111`)

```ts
function escapeSnippetText(text: string): string[] {
    return text.split('\n').map(line =>
        line
            .replace(/\\/g, '\\\\')  // Escape backslashes
            .replace(/"/g, '\\"')    // Escape quotes
            .replace(/\t/g, '\\t')   // Escape tabs
            .replace(/\r/g, '')      // Remove carriage returns
    );
}
```
Each `replace` is a global single-character substitution, modelled as a
per-character `List.bind`. -/

def replBackslash (cs : List Char) : List Char :=
  cs.flatMap fun c => if c = '\\' then ['\\', '\\'] else [c]

def replQuote (cs : List Char) : List Char :=
  cs.flatMap fun c => if c = '"' then ['\\', '"'] else [c]

def replTab (cs : List Char) : List Char :=
  cs.flatMap fun c => if c = '\t' then ['\\', 't'] else [c]

def stripCR (cs : List Char) : List Char :=
  cs.flatMap fun c => if c = '\r' then [] else [c]

/-- The per-line transformation, in the source's order: escape backslash,
escape double-quote, escape tab, strip carriage returns. -/
def escapeLine (cs : List Char) : List Char :=
  stripCR (replTab (replQuote (replBackslash cs)))

/-- `escapeSnippetText`: split on `'\n'`, transform each line. -/
def escapeSnippetText (text : String) : List (List Char) :=
  (splitNl text.data).map escapeLine

/-- The effect of `escapeLine` on a single input character. -/
def lineBlock (c : Char) : List Char :=
  if c = '\\' then ['\\', '\\']
  else if c = '"' then ['\\', '"']
  else if c = '\t' then ['\\', 't']
  else if c = '\r' then []
  else [c]

theorem escapeLine_nil : escapeLine [] = [] := rfl

theorem escapeLine_cons (c : Char) (cs : List Char) :
    escapeLine (c :: cs) = lineBlock c ++ escapeLine cs := by
  simp only [escapeLine, replBackslash, replQuote, replTab, stripCR, lineBlock,
    List.flatMap_cons, List.flatMap_append]
  by_cases h1 : c = '\\'
  · subst h1; simp
  · rw [if_neg h1]
    by_cases h2 : c = '"'
    · subst h2; simp
    · rw [if_neg h2]
      by_cases h3 : c = '\t'
      · subst h3; simp
      · rw [if_neg h3]
        by_cases h4 : c = '\r'
        · subst h4; simp
        · simp [h1, h2, h3, h4]

/-- A line is "well escaped" when, scanning left to right with a backslash
escaping the character after it, no raw (unescaped) double quote, tab,
carriage return, or dangling backslash is ever reached. -/
def escOk : List Char → Bool
  | [] => true
  | c :: rest =>
    if c = '\\' then
      match rest with
      | [] => false
      | _ :: rest2 => escOk rest2
    else if c = '"' ∨ c = '\t' ∨ c = '\r' then false
    else escOk rest

theorem escOk_lineBlock (c : Char) (cs : List Char) :
    escOk (lineBlock c ++ cs) = escOk cs := by
  simp only [lineBlock]
  by_cases h1 : c = '\\'
  · subst h1; simp [escOk]
  · rw [if_neg h1]
    by_cases h2 : c = '"'
    · subst h2; simp [escOk]
    · rw [if_neg h2]
      by_cases h3 : c = '\t'
      · subst h3; simp [escOk]
      · rw [if_neg h3]
        by_cases h4 : c = '\r'
        · subst h4; simp
        · rw [if_neg h4]
          show escOk (c :: cs) = escOk cs
          rw [escOk.eq_def]
          simp [h1, h2, h3, h4]

theorem escOk_escapeLine (cs : List Char) : escOk (escapeLine cs) = true := by
  induction cs with
  | nil => rfl
  | cons c rest ih => rw [escapeLine_cons, escOk_lineBlock]; exact ih

theorem tab_not_mem_lineBlock (c : Char) : '\t' ∉ lineBlock c := by
  simp only [lineBlock]
  by_cases h1 : c = '\\'
  · subst h1; simp
  · rw [if_neg h1]
    by_cases h2 : c = '"'
    · subst h2; simp
    · rw [if_neg h2]
      by_cases h3 : c = '\t'
      · subst h3; simp
      · rw [if_neg h3]
        by_cases h4 : c = '\r'
        · subst h4; simp
        · rw [if_neg h4]; simp [Ne.symm h3]

theorem cr_not_mem_lineBlock (c : Char) : '\r' ∉ lineBlock c := by
  simp only [lineBlock]
  by_cases h1 : c = '\\'
  · subst h1; simp
  · rw [if_neg h1]
    by_cases h2 : c = '"'
    · subst h2; simp
    · rw [if_neg h2]
      by_cases h3 : c = '\t'
      · subst h3; simp
      · rw [if_neg h3]
        by_cases h4 : c = '\r'
        · subst h4; simp
        · rw [if_neg h4]; simp [Ne.symm h4]

theorem tab_not_mem_escapeLine (cs : List Char) : '\t' ∉ escapeLine cs := by
  induction cs with
  | nil => simp [escapeLine_nil]
  | cons c rest ih =>
    rw [escapeLine_cons]
    simp only [List.mem_append, not_or]
    exact ⟨tab_not_mem_lineBlock c, ih⟩

theorem cr_not_mem_escapeLine (cs : List Char) : '\r' ∉ escapeLine cs := by
  induction cs with
  | nil => simp [escapeLine_nil]
  | cons c rest ih =>
    rw [escapeLine_cons]
    simp only [List.mem_append, not_or]
    exact ⟨cr_not_mem_lineBlock c, ih⟩

/-! ## JSON values and the lenient parse mechanism

`parseSnippetsFile` (`src/extension.ts:118-137`) delegates to
`jsonc.parse(content, parseErrors, { allowTrailingComma: true })` from the
external `jsonc-parser` npm package.

Modelled from the spec: the Lenient JSON Parser's *parse mechanism*
(`jsonc.parse`) is not part of this repository; per the spec it "must tolerate
embedded `//` and block comments and a single trailing comma before a closing
bracket/brace (superset of strict JSON)" and reports structured errors with
byte offsets instead of throwing.  `jsoncParse` below is an executable model
of that contract: a recursive-descent parser over characters that skips
whitespace and both comment forms between tokens and accepts one optional
trailing comma in objects and arrays.  The precise error codes/offsets it
reports on malformed input are abstracted (every claim about error *content*
is proved for an arbitrary mechanism outcome, see `MechResult`). -/

/-- A parsed JSON value.  Numbers keep their source literal (the program never
does arithmetic on them); strings and object keys are character lists. -/
inductive JVal where
  | null
  | bool (b : Bool)
  | num (lit : List Char)
  | str (s : List Char)
  | arr (xs : List JVal)
  | obj (kvs : List (List Char × JVal))

/-- `jsonc.ParseError`: a numeric error code plus offset/length. -/
structure ParseError where
  error : Nat
  offset : Nat
  length : Nat
deriving DecidableEq

/-- Outcome of calling the parse mechanism: either a value (possibly
`undefined`, i.e. `none`) together with the errors it pushed into the
`parseErrors` array, or an unexpected thrown exception with its description. -/
inductive MechResult where
  | ok (value : Option JVal) (errors : List ParseError)
  | thrown (desc : String)

/-- Whitespace skipped by the jsonc scanner. -/
def isWsJsonc (c : Char) : Bool :=
  c = ' ' || c = '\t' || c = '\n' || c = '\r'

/-- Consume through the first `*/`, returning what follows (`none` when the
block comment is unterminated). -/
def dropThroughStarSlash : List Char → Option (List Char)
  | [] => none
  | a :: rest =>
    match rest with
    | [] => none
    | b :: r => if a = '*' ∧ b = '/' then some r else dropThroughStarSlash rest

theorem length_dropThroughStarSlash :
    ∀ cs r, dropThroughStarSlash cs = some r → r.length < cs.length := by
  intro cs
  induction cs with
  | nil => intro r h; simp [dropThroughStarSlash] at h
  | cons a rest ih =>
    intro r h
    cases rest with
    | nil => simp [dropThroughStarSlash] at h
    | cons b r2 =>
      have hstep : dropThroughStarSlash (a :: b :: r2) =
          if a = '*' ∧ b = '/' then some r2 else dropThroughStarSlash (b :: r2) := rfl
      rw [hstep] at h
      by_cases hab : a = '*' ∧ b = '/'
      · rw [if_pos hab] at h
        cases h
        simp only [List.length_cons]
        omega
      · rw [if_neg hab] at h
        have := ih r h
        simp only [List.length_cons] at this ⊢
        omega

theorem len_dropWhile_le (p : Char → Bool) (l : List Char) :
    (l.dropWhile p).length ≤ l.length := by
  induction l with
  | nil => simp
  | cons a r ih =>
    by_cases h : p a
    · simp only [List.dropWhile_cons, h, if_true]
      simp only [List.length_cons]
      omega
    · simp [List.dropWhile_cons, h]

/-- `true` when the character list contains no `*/` pair (so a block comment
with this body ends exactly at its closing `*/`). -/
def noStarSlash : List Char → Bool
  | [] => true
  | a :: rest =>
    match rest with
    | [] => true
    | b :: _ => if a = '*' ∧ b = '/' then false else noStarSlash rest

/-- Skip whitespace, `//` line comments and `/* */` block comments; `none`
on an unterminated block comment or a lone `/`.  Structural on `fuel`: every
step consumes at least one character, so the `skipLayout` wrapper's
`cs.length + 1` is always enough fuel (`skipLayoutF_layout` below). -/
def skipLayoutF : Nat → List Char → Option (List Char)
  | 0, _ => none
  | _ + 1, [] => some []
  | fuel + 1, c :: rest =>
    if isWsJsonc c then skipLayoutF fuel rest
    else if c = '/' then
      match rest with
      | [] => none
      | d :: r2 =>
        if d = '/' then skipLayoutF fuel (r2.dropWhile (fun x => x ≠ '\n'))
        else if d = '*' then
          match dropThroughStarSlash r2 with
          | some r3 => skipLayoutF fuel r3
          | none => none
        else none
    else some (c :: rest)

def skipLayout (cs : List Char) : Option (List Char) := skipLayoutF (cs.length + 1) cs

/-- Decode a single-character escape sequence. -/
def escDecodeChar (e : Char) : Option Char :=
  if e = '"' then some '"'
  else if e = '\\' then some '\\'
  else if e = '/' then some '/'
  else if e = 'b' then some (Char.ofNat 8)
  else if e = 'f' then some (Char.ofNat 12)
  else if e = 'n' then some '\n'
  else if e = 'r' then some '\r'
  else if e = 't' then some '\t'
  else none

def hexVal (c : Char) : Option Nat :=
  let n := c.toNat
  if 48 ≤ n ∧ n ≤ 57 then some (n - 48)
  else if 97 ≤ n ∧ n ≤ 102 then some (n - 87)
  else if 65 ≤ n ∧ n ≤ 70 then some (n - 55)
  else none

/-- Parse the body of a string literal (after the opening quote), returning
the decoded characters and the input after the closing quote. -/
def parseStrBody : List Char → Option (List Char × List Char)
  | [] => none
  | c :: rest =>
    if c = '"' then some ([], rest)
    else if c = '\\' then
      match rest with
      | [] => none
      | e :: r =>
        if e = 'u' then
          match r with
          | h1 :: h2 :: h3 :: h4 :: r2 =>
            match hexVal h1, hexVal h2, hexVal h3, hexVal h4 with
            | some a, some b, some c2, some d =>
              (parseStrBody r2).map fun p => (Char.ofNat (((a * 16 + b) * 16 + c2) * 16 + d) :: p.1, p.2)
            | _, _, _, _ => none
          | _ => none
        else
          match escDecodeChar e with
          | some d => (parseStrBody r).map fun p => (d :: p.1, p.2)
          | none => none
    else (parseStrBody rest).map fun p => (c :: p.1, p.2)

def isDigit (c : Char) : Bool := '0' ≤ c && c ≤ '9'

def takeDigits (cs : List Char) : List Char × List Char :=
  (cs.takeWhile isDigit, cs.dropWhile isDigit)

/-- Optional exponent part of a number; `acc` is the literal consumed so far. -/
def parseExpPart (acc : List Char) (cs : List Char) : Option (List Char × List Char) :=
  match cs with
  | [] => some (acc, [])
  | c :: r =>
    if c = 'e' ∨ c = 'E' then
      let sr : List Char × List Char :=
        match r with
        | [] => ([], r)
        | c2 :: rr => if c2 = '+' then (['+'], rr) else if c2 = '-' then (['-'], rr) else ([], r)
      let ed := takeDigits sr.2
      if ed.1 = [] then none else some (acc ++ c :: (sr.1 ++ ed.1), ed.2)
    else some (acc, cs)

/-- Optional fraction part, then exponent. -/
def parseFracPart (acc : List Char) (cs : List Char) : Option (List Char × List Char) :=
  match cs with
  | [] => parseExpPart acc []
  | c :: r =>
    if c = '.' then
      let fd := takeDigits r
      if fd.1 = [] then none else parseExpPart (acc ++ '.' :: fd.1) fd.2
    else parseExpPart acc (c :: r)

/-- Parse a number literal, returning the characters consumed. -/
def parseNumber (cs : List Char) : Option (List Char × List Char) :=
  let sc : List Char × List Char :=
    match cs with
    | [] => ([], [])
    | c :: r => if c = '-' then (['-'], r) else ([], c :: r)
  let ds := takeDigits sc.2
  if ds.1 = [] then none else parseFracPart (sc.1 ++ ds.1) ds.2

mutual

/-- Parse one JSON value (the input must start directly at the value; layout
inside objects/arrays is skipped at the punctuation points). -/
def parseVal : Nat → List Char → Option (JVal × List Char)
  | 0, _ => none
  | fuel + 1, cs =>
    match cs with
    | [] => none
    | c :: rest =>
      if c = '"' then (parseStrBody rest).map fun p => (JVal.str p.1, p.2)
      else if c = '{' then
        match skipLayout rest with
        | none => none
        | some r1 =>
          match r1 with
          | [] => none
          | d :: r2 =>
            if d = '}' then some (JVal.obj [], r2)
            else (parseMembers fuel (d :: r2)).map fun p => (JVal.obj p.1, p.2)
      else if c = '[' then
        match skipLayout rest with
        | none => none
        | some r1 =>
          match r1 with
          | [] => none
          | d :: r2 =>
            if d = ']' then some (JVal.arr [], r2)
            else (parseItems fuel (d :: r2)).map fun p => (JVal.arr p.1, p.2)
      else if c = 't' then
        if ['r', 'u', 'e'].isPrefixOf rest then some (JVal.bool true, rest.drop 3) else none
      else if c = 'f' then
        if ['a', 'l', 's', 'e'].isPrefixOf rest then some (JVal.bool false, rest.drop 4) else none
      else if c = 'n' then
        if ['u', 'l', 'l'].isPrefixOf rest then some (JVal.null, rest.drop 3) else none
      else if c = '-' ∨ isDigit c then
        (parseNumber (c :: rest)).map fun p => (JVal.num p.1, p.2)
      else none

/-- Parse the members of an object, starting at the first key, through the
closing `}` (tolerating one trailing comma). -/
def parseMembers : Nat → List Char → Option (List (List Char × JVal) × List Char)
  | 0, _ => none
  | fuel + 1, cs =>
    match cs with
    | [] => none
    | c :: rest =>
      if c = '"' then
        match parseStrBody rest with
        | none => none
        | some (k, r1) =>
          match skipLayout r1 with
          | none => none
          | some r2 =>
            match r2 with
            | [] => none
            | d :: r3 =>
              if d = ':' then
                match skipLayout r3 with
                | none => none
                | some r4 =>
                  match parseVal fuel r4 with
                  | none => none
                  | some (v, r5) =>
                    match skipLayout r5 with
                    | none => none
                    | some r6 =>
                      match r6 with
                      | [] => none
                      | d2 :: r7 =>
                        if d2 = '}' then some ([(k, v)], r7)
                        else if d2 = ',' then
                          match skipLayout r7 with
                          | none => none
                          | some r8 =>
                            match r8 with
                            | [] => none
                            | d3 :: r9 =>
                              if d3 = '}' then some ([(k, v)], r9)
                              else (parseMembers fuel (d3 :: r9)).map fun p => ((k, v) :: p.1, p.2)
                        else none
              else none
      else none

/-- Parse the items of an array, starting at the first item, through the
closing `]` (tolerating one trailing comma). -/
def parseItems : Nat → List Char → Option (List JVal × List Char)
  | 0, _ => none
  | fuel + 1, cs =>
    match parseVal fuel cs with
    | none => none
    | some (v, r1) =>
      match skipLayout r1 with
      | none => none
      | some r2 =>
        match r2 with
        | [] => none
        | d :: r3 =>
          if d = ']' then some ([v], r3)
          else if d = ',' then
            match skipLayout r3 with
            | none => none
            | some r4 =>
              match r4 with
              | [] => none
              | d2 :: r5 =>
                if d2 = ']' then some ([v], r5)
                else (parseItems fuel (d2 :: r5)).map fun p => (v :: p.1, p.2)
          else none
    
end

/-- An abstract error value; when the modelled mechanism fails, the code,
offset and length it would report are not modelled (no claim depends on
them — claims about error content hold for an arbitrary mechanism outcome). -/
def someParseError : ParseError := ⟨1, 0, 0⟩

/-- The modelled `jsonc.parse(content, errors, { allowTrailingComma: true })`:
one value surrounded by layout; anything else reports errors. -/
def jsoncParse (content : String) : Option JVal × List ParseError :=
  let cs := content.data
  match skipLayout cs with
  | none => (none, [someParseError])
  | some cs1 =>
    match parseVal (cs1.length + 1) cs1 with
    | none => (none, [someParseError])
    | some (v, rest) =>
      match skipLayout rest with
      | some [] => (some v, [])
      | _ => (some v, [someParseError])

/-- The parse mechanism as used by `saveSnippet` (it never throws in the
modelled cases). -/
def jsoncMech (content : String) : MechResult :=
  MechResult.ok (jsoncParse content).1 (jsoncParse content).2

/-! ## `parseSnippetsFile` and `formatParseErrors` (`src/extension.ts:118-158`)

```ts
function formatParseErrors(content: string, parseErrors: jsonc.ParseError[]): string {
    const errorDetails = parseErrors.map(error => {
        const lines = content.split('\n');
        const lineIndex = content.slice(0, error.offset).split('\n').length - 1;
        const errorLine = lines[lineIndex];
        const lastNewLine = content.lastIndexOf('\n', error.offset);
        const column = lastNewLine === -1 ? error.offset : error.offset - lastNewLine - 1;
        return `Line ${lineIndex + 1}, Column ${column + 1}: ${error.error}\n${errorLine}`;
    }).join('\n');
    return `Parsing errors detected:\n${errorDetails}`;
}
```
(`error.error` is the numeric `jsonc.ParseErrorCode`, so `${error.error}`
prints its decimal representation.) -/

/-- Index of the last `'\n'` in the list, if any. -/
def lastNlIndex : List Char → Option Nat
  | [] => none
  | c :: rest =>
    match lastNlIndex rest with
    | some i => some (i + 1)
    | none => if c = '\n' then some 0 else none

/-- Model of JavaScript `content.lastIndexOf('\n', pos)`: the largest index
`≤ pos` holding `'\n'`, or `-1`. -/
def jsLastIndexOfNl (cs : List Char) (pos : Nat) : Int :=
  match lastNlIndex (cs.take (pos + 1)) with
  | some i => (i : Int)
  | none => -1

/-- One `Line L, Column C: <code>\n<offending line>` block of the report. -/
def errorBlock (content : String) (e : ParseError) : String :=
  let cs := content.data
  let lines := splitNl cs
  let lineIndex := (splitNl (cs.take e.offset)).length - 1
  let errorLine := lines.getD lineIndex []
  let lastNewLine : Int := jsLastIndexOfNl cs e.offset
  let column : Int := if lastNewLine = -1 then (e.offset : Int) else (e.offset : Int) - lastNewLine - 1
  "Line " ++ toString (lineIndex + 1) ++ ", Column " ++ toString (column + 1) ++ ": " ++
    toString e.error ++ "\n" ++ String.mk errorLine

def formatParseErrors (content : String) (parseErrors : List ParseError) : String :=
  "Parsing errors detected:\n" ++ joinSep "\n" (parseErrors.map (errorBlock content))

/-- Result shape of `parseSnippetsFile`. -/
structure ParseOutcome where
  snippets : Option JVal
  error : Option String

/-- `parseSnippetsFile(content)`, with the parse mechanism's outcome as an
explicit argument: structured errors produce the formatted report and a null
result; a thrown exception produces the distinct fatal message. -/
def parseSnippetsFile (content : String) (mech : MechResult) : ParseOutcome :=
  match mech with
  | .thrown desc => ⟨none, some ("Fatal parsing error: " ++ desc)⟩
  | .ok value errors =>
    if errors.length > 0 then ⟨none, some (formatParseErrors content errors)⟩
    else ⟨value, none⟩

/-! ## Snippet entries, merge and serialization (`src/extension.ts:256-287`) -/

/-- First-match association lookup (JavaScript property access on the merged
object). -/
def lookupLC (m : List (List Char × JVal)) (k : List Char) : Option JVal :=
  match m with
  | [] => none
  | (k2, v) :: rest => if k2 = k then some v else lookupLC rest k

/-- JavaScript object spread of a parsed value (`{...(snippets || {})}`):
objects contribute their properties in order; a primitive contributes none.
(A parsed array or string would contribute index keys in real JavaScript;
snippet files hold objects, and no claim touches that corner.) -/
def spreadObj : JVal → List (List Char × JVal)
  | .obj kvs => kvs
  | _ => []

/-- `{...m, [n]: e}`: if `n` already occurs, its first occurrence keeps its
position and receives the new value; otherwise `(n, e)` is appended. -/
def mergeSnippets (m : List (List Char × JVal)) (n : List Char) (e : JVal) :
    List (List Char × JVal) :=
  if m.any (fun kv => kv.1 = n) then
    m.map fun kv => if kv.1 = n then (n, e) else kv
  else m ++ [(n, e)]

/-- Information collected by the prompt flow. -/
structure SnippetInfo where
  name : String
  prefixes : List String
  description : String
  language : String
deriving DecidableEq

/-- The new snippet entry built in `saveSnippet` (`src/extension.ts:267-273`):
`{ prefix: snippetInfo.prefixes, body: escapeSnippetText(selectedText),
   description: snippetInfo.description }` — note the `prefix` field is always
the array of prefixes, never a bare string. -/
def newSnippetJ (info : SnippetInfo) (selectedText : String) : JVal :=
  JVal.obj
    [("prefix".data, JVal.arr (info.prefixes.map fun p => JVal.str p.data)),
     ("body".data, JVal.arr ((escapeSnippetText selectedText).map JVal.str)),
     ("description".data, JVal.str info.description.data)]

/-! ### `JSON.stringify(value, null, 2)` (external JavaScript builtin,
modelled from its documented behaviour; number literals are emitted verbatim,
which agrees with JavaScript whenever the literal is canonical — the program
itself only ever serializes strings, arrays and objects). -/

def hexDigitChar (n : Nat) : Char :=
  Char.ofNat (if n < 10 then 48 + n else 87 + n)

def jsEscapeChar (c : Char) : List Char :=
  if c = '"' then ['\\', '"']
  else if c = '\\' then ['\\', '\\']
  else if c = '\n' then ['\\', 'n']
  else if c = '\r' then ['\\', 'r']
  else if c = '\t' then ['\\', 't']
  else if c = Char.ofNat 8 then ['\\', 'b']
  else if c = Char.ofNat 12 then ['\\', 'f']
  else if c.toNat < 32 then
    ['\\', 'u', '0', '0', hexDigitChar (c.toNat / 16), hexDigitChar (c.toNat % 16)]
  else [c]

def jsEscape (s : List Char) : List Char := s.flatMap jsEscapeChar

def spacesL (n : Nat) : List Char := List.replicate n ' '

mutual

def stringifyVal (ind : Nat) : JVal → List Char
  | .null => 'n' :: 'u' :: 'l' :: 'l' :: []
  | .bool true => 't' :: 'r' :: 'u' :: 'e' :: []
  | .bool false => 'f' :: 'a' :: 'l' :: 's' :: 'e' :: []
  | .num lit => lit
  | .str s => '"' :: (jsEscape s ++ ['"'])
  | .arr [] => ['[', ']']
  | .arr (x :: xs) =>
    '[' :: '\n' :: (stringifyItems (ind + 2) (x :: xs) ++ '\n' :: (spacesL ind ++ [']']))
  | .obj [] => ['{', '}']
  | .obj (kv :: kvs) =>
    '{' :: '\n' :: (stringifyMembers (ind + 2) (kv :: kvs) ++ '\n' :: (spacesL ind ++ ['}']))

def stringifyItems (ind : Nat) : List JVal → List Char
  | [] => []
  | [x] => spacesL ind ++ stringifyVal ind x
  | x :: y :: xs => spacesL ind ++ stringifyVal ind x ++ ',' :: '\n' :: stringifyItems ind (y :: xs)

def stringifyMembers (ind : Nat) : List (List Char × JVal) → List Char
  | [] => []
  | [(k, v)] => spacesL ind ++ '"' :: (jsEscape k ++ '"' :: ':' :: ' ' :: stringifyVal ind v)
  | (k, v) :: kv2 :: kvs =>
    (spacesL ind ++ '"' :: (jsEscape k ++ '"' :: ':' :: ' ' :: stringifyVal ind v)) ++
      ',' :: '\n' :: stringifyMembers ind (kv2 :: kvs)

end

/-! ## Editor detection and path resolution (`src/extension.ts:220-247`) -/

/-- Model of JavaScript `String.prototype.includes`. -/
def containsSub (s sub : List Char) : Bool :=
  sub.isPrefixOf s ||
    match s with
    | [] => false
    | _ :: rest => containsSub rest sub

def strContains (s sub : String) : Bool := containsSub s.data sub.data

/-- Host environment: `vscode.env.appName` and the config base directory
(`process.env.APPDATA || process.env.HOME || ''`). -/
structure EditorEnv where
  appName : String
  baseDir : String

/-- `getEditorInfo()` (`src/extension.ts:220-226`). -/
structure EditorInfo where
  isVSCode : Bool
  isCursor : Bool
  appName : String

def getEditorInfo (env : EditorEnv) : EditorInfo :=
  { isVSCode := env.appName = "Visual Studio Code"
    isCursor := strContains env.appName "Cursor"
    appName := env.appName }

/-- The config-folder component chosen in `saveSnippet`
(`isVSCode ? 'Code' : isCursor ? 'Cursor' : appName`). -/
def configFolder (env : EditorEnv) : String :=
  let info := getEditorInfo env
  if info.isVSCode then "Code" else if info.isCursor then "Cursor" else info.appName

/-- Model of `path.join` (empty segments dropped, `/` separator). -/
def pathJoin (parts : List String) : String :=
  joinSep "/" (parts.filter fun p => p ≠ "")

/-- Model of `path.dirname`: everything before the last `/`. -/
def pathDirname (p : String) : String :=
  let cs := p.data
  if '/' ∈ cs then
    let pre := ((cs.reverse.dropWhile (fun c => c ≠ '/')).drop 1).reverse
    if pre = [] then "/" else String.mk pre
  else "."

/-- The snippets-file path `saveSnippet` composes (`src/extension.ts:240-247`). -/
def snippetsPathFor (env : EditorEnv) (language : String) : String :=
  pathJoin [env.baseDir, configFolder env, "User", "snippets", language ++ ".json"]

/-! ## Filesystem model and `saveSnippet` (`src/extension.ts:233-287`) -/

/-- Directories (`existsSync` on a directory / `mkdirSync`) and files
(`existsSync`/`readFileSync`/`writeFileSync`) touched by the program.
`mkdirSync(..., { recursive: true })` is modelled as marking the target
directory as existing (intermediate ancestors are never queried again by the
program, so they are not tracked individually). -/
structure FS where
  dirs : String → Bool
  files : String → Option String

/-- `saveSnippet(snippetInfo, selectedText)`: returns the filesystem after the
call together with `none` on success or `some message` for the thrown error
(`Error parsing existing snippets: ...`). -/
def saveSnippet (info : SnippetInfo) (selectedText : String) (env : EditorEnv)
    (mech : String → MechResult) (fs : FS) : FS × Option String :=
  let snippetsPath := snippetsPathFor env info.language
  let snippetsDir := pathDirname snippetsPath
  let fs1 : FS :=
    if fs.dirs snippetsDir then fs
    else { fs with dirs := fun d => if d = snippetsDir then true else fs.dirs d }
  let existingContent :=
    match fs1.files snippetsPath with
    | some c => c
    | none => "\x7b\x7d"
  let pr := parseSnippetsFile existingContent (mech existingContent)
  match pr.error with
  | some err => (fs1, some ("Error parsing existing snippets: " ++ err))
  | none =>
    let newSnippet := newSnippetJ info selectedText
    let updatedSnippets :=
      mergeSnippets (spreadObj (pr.snippets.getD (JVal.obj []))) info.name.data newSnippet
    let out := String.mk (stringifyVal 0 (JVal.obj updatedSnippets))
    ({ fs1 with files := fun p => if p = snippetsPath then some out else fs1.files p }, none)

/-! ## Interaction flow (`collectSnippetInfo`, `determineLanguage`,
`activate`; `src/extension.ts:165-214, 289-319`) -/

/-- The responses of the four `showInputBox` prompts (`none` = cancelled). -/
structure PromptResponses where
  name : Option String
  prefixInput : Option String
  description : Option String
  language : Option String

/-- JavaScript truthiness of an optional string: `undefined` and `""` are
falsy. -/
def truthyStr : Option String → Option String
  | none => none
  | some s => if s = "" then none else some s

/-- `determineLanguage(document)`: a known non-`plaintext` document language
is used directly; otherwise the prompt's answer, lowercased, with
empty/cancelled giving `null`. -/
def determineLanguage (docLanguageId : String) (resp : Option String) : Option String :=
  if docLanguageId ≠ "" ∧ docLanguageId ≠ "plaintext" then some docLanguageId
  else
    match truthyStr resp with
    | some l => some l.toLower
    | none => none

/-- `prefixInput.split(',').map(p => p.trim()).filter(p => p !== '')`. -/
def parsePrefixes (input : String) : List String :=
  (((splitOnChar ',' input.data).map trimJS).filter fun p => p ≠ []).map String.mk

/-- `collectSnippetInfo(document)` as a function of the prompt responses. -/
def collectSnippetInfo (docLanguageId : String) (r : PromptResponses) : Option SnippetInfo :=
  match truthyStr r.name with
  | none => none
  | some snippetName =>
    match truthyStr r.prefixInput with
    | none => none
    | some prefixInput =>
      match determineLanguage docLanguageId r.language with
      | none => none
      | some language =>
        some { name := snippetName
               prefixes := parsePrefixes prefixInput
               description :=
                 match r.description with
                 | some d => if d = "" then snippetName else d
                 | none => snippetName
               language := language }

/-- User-visible outcome of the `extension.generateSnippet` command. -/
inductive CmdResult where
  | noEditor
  | noSelection
  | cancelled
  | success (name : String)
  | failure (msg : String)
deriving DecidableEq

/-- The command handler registered in `activate`: editor/selection
preconditions, the prompt flow, then `saveSnippet` inside `try`/`catch`
(`${error}` on a caught `Error` prints `Error: <message>`). -/
def generateSnippetCommand (hasEditor : Bool) (docLanguageId selectedText : String)
    (r : PromptResponses) (env : EditorEnv) (mech : String → MechResult) (fs : FS) :
    FS × CmdResult :=
  if !hasEditor then (fs, .noEditor)
  else if selectedText = "" then (fs, .noSelection)
  else
    match collectSnippetInfo docLanguageId r with
    | none => (fs, .cancelled)
    | some info =>
      match saveSnippet info selectedText env mech fs with
      | (fs2, none) => (fs2, .success info.name)
      | (fs2, some e) => (fs2, .failure ("Error creating snippet: Error: " ++ e))

/-! ## Well-formed JSON-with-comments inputs

A relational grammar of well-formed JSON-with-comments text: strict JSON
values, layout (whitespace, `//` line comments, `/* */` block comments)
between tokens, and at most one trailing comma before a closing `}`/`]`.
`gram_sound` below proves the modelled mechanism parses every such text to
exactly its value with zero errors. -/

/-- Well-formed layout: whitespace and comments. -/
inductive Layout : List Char → Prop
  | nil : Layout []
  | ws {c : Char} {s : List Char} : isWsJsonc c = true → Layout s → Layout (c :: s)
  | line {body s : List Char} : (∀ x ∈ body, x ≠ '\n') → Layout s →
      Layout ('/' :: '/' :: (body ++ '\n' :: s))
  | block {body s : List Char} : noStarSlash body = true → Layout s →
      Layout ('/' :: '*' :: (body ++ '*' :: '/' :: s))

/-- `StrR s e`: `e` is a well-formed encoding of the string `s`, including the
closing quote (escape sequences or plain non-control characters). -/
inductive StrR : List Char → List Char → Prop
  | done : StrR [] ['"']
  | chr {c : Char} {s e : List Char} : c ≠ '"' → c ≠ '\\' → 32 ≤ c.toNat →
      StrR s e → StrR (c :: s) (c :: e)
  | esc {c ec : Char} {s e : List Char} : escDecodeChar ec = some c →
      StrR s e → StrR (c :: s) ('\\' :: ec :: e)

/-- Strict-JSON integer part: `0`, or a nonzero digit followed by digits. -/
inductive IntLit : List Char → Prop
  | zero : IntLit ['0']
  | pos {c : Char} {ds : List Char} : '1' ≤ c → c ≤ '9' → (∀ d ∈ ds, isDigit d = true) →
      IntLit (c :: ds)

/-- Optional fraction part. -/
inductive FracLit : List Char → Prop
  | none : FracLit []
  | frac {ds : List Char} : ds ≠ [] → (∀ d ∈ ds, isDigit d = true) → FracLit ('.' :: ds)

/-- Optional exponent part. -/
inductive ExpLit : List Char → Prop
  | none : ExpLit []
  | exp {e : Char} {sgn ds : List Char} : (e = 'e' ∨ e = 'E') →
      (sgn = [] ∨ sgn = ['+'] ∨ sgn = ['-']) → ds ≠ [] → (∀ d ∈ ds, isDigit d = true) →
      ExpLit (e :: (sgn ++ ds))

/-- Well-formed JSON number literal. -/
inductive NumLit : List Char → Prop
  | mk {sgn ip fr ex : List Char} : (sgn = [] ∨ sgn = ['-']) → IntLit ip → FracLit fr →
      ExpLit ex → NumLit (sgn ++ (ip ++ (fr ++ ex)))

/-- What the parser must produce: a value, an object's member list, or an
array's item list. -/
inductive GT where
  | val (v : JVal)
  | mems (kvs : List (List Char × JVal))
  | itms (xs : List JVal)

/-- `Gram t s`: `s` is a well-formed rendering of `t`.  Member/item renderings
include everything from the first token up to and including the closing
`}`/`]`, mirroring `parseMembers`/`parseItems`. -/
inductive Gram : GT → List Char → Prop
  | str {s e : List Char} : StrR s e → Gram (.val (JVal.str s)) ('"' :: e)
  | tru : Gram (.val (JVal.bool true)) ('t' :: 'r' :: 'u' :: 'e' :: [])
  | fls : Gram (.val (JVal.bool false)) ('f' :: 'a' :: 'l' :: 's' :: 'e' :: [])
  | nul : Gram (.val JVal.null) ('n' :: 'u' :: 'l' :: 'l' :: [])
  | num {lit : List Char} : NumLit lit → Gram (.val (JVal.num lit)) lit
  | objEmpty {L : List Char} : Layout L → Gram (.val (JVal.obj [])) ('{' :: (L ++ ['}']))
  | objNE {L ms : List Char} {kvs : List (List Char × JVal)} : Layout L →
      Gram (.mems kvs) ms → (kvs.map Prod.fst).Nodup →
      Gram (.val (JVal.obj kvs)) ('{' :: (L ++ ms))
  | arrEmpty {L : List Char} : Layout L → Gram (.val (JVal.arr [])) ('[' :: (L ++ [']']))
  | arrNE {L is : List Char} {xs : List JVal} : Layout L → Gram (.itms xs) is →
      Gram (.val (JVal.arr xs)) ('[' :: (L ++ is))
  | memLast {k ke L1 L2 vs L3 : List Char} {v : JVal} : StrR k ke → Layout L1 → Layout L2 →
      Gram (.val v) vs → Layout L3 →
      Gram (.mems [(k, v)]) ('"' :: (ke ++ (L1 ++ (':' :: (L2 ++ (vs ++ (L3 ++ ['}'])))))))
  | memLastComma {k ke L1 L2 vs L3 L4 : List Char} {v : JVal} : StrR k ke → Layout L1 →
      Layout L2 → Gram (.val v) vs → Layout L3 → Layout L4 →
      Gram (.mems [(k, v)])
        ('"' :: (ke ++ (L1 ++ (':' :: (L2 ++ (vs ++ (L3 ++ (',' :: (L4 ++ ['}'])))))))))
  | memCons {k ke L1 L2 vs L3 L4 ms : List Char} {v : JVal} {kvs : List (List Char × JVal)} :
      StrR k ke → Layout L1 → Layout L2 → Gram (.val v) vs → Layout L3 → Layout L4 →
      Gram (.mems kvs) ms →
      Gram (.mems ((k, v) :: kvs))
        ('"' :: (ke ++ (L1 ++ (':' :: (L2 ++ (vs ++ (L3 ++ (',' :: (L4 ++ ms)))))))))
  | itmLast {vs L1 : List Char} {v : JVal} : Gram (.val v) vs → Layout L1 →
      Gram (.itms [v]) (vs ++ (L1 ++ [']']))
  | itmLastComma {vs L1 L2 : List Char} {v : JVal} : Gram (.val v) vs → Layout L1 →
      Layout L2 → Gram (.itms [v]) (vs ++ (L1 ++ (',' :: (L2 ++ [']']))))
  | itmCons {vs L1 L2 is : List Char} {v : JVal} {xs : List JVal} : Gram (.val v) vs →
      Layout L1 → Layout L2 → Gram (.itms xs) is →
      Gram (.itms (v :: xs)) (vs ++ (L1 ++ (',' :: (L2 ++ is))))

/-- What may legally follow a stretch of layout for `skipLayout` to stop
exactly there. -/
def LayoutBoundary : List Char → Prop
  | [] => True
  | c :: _ => isWsJsonc c = false ∧ c ≠ '/'

theorem dropWhile_until_nl {body : List Char} (h : ∀ x ∈ body, x ≠ '\n') (s : List Char) :
    (body ++ '\n' :: s).dropWhile (fun x => x ≠ '\n') = '\n' :: s := by
  induction body with
  | nil => simp [List.dropWhile_cons]
  | cons a rest ih =>
    have ha : a ≠ '\n' := h a (List.mem_cons_self a rest)
    simp only [List.cons_append, List.dropWhile_cons]
    rw [if_pos (by simpa using ha)]
    exact ih fun x hx => h x (List.mem_cons_of_mem a hx)

theorem dropThroughStarSlash_closes {body : List Char} (h : noStarSlash body = true)
    (s : List Char) : dropThroughStarSlash (body ++ '*' :: '/' :: s) = some s := by
  induction body with
  | nil =>
    rw [List.nil_append]
    show (if ('*' : Char) = '*' ∧ ('/' : Char) = '/' then some s
      else dropThroughStarSlash ('/' :: s)) = some s
    rw [if_pos ⟨rfl, rfl⟩]
  | cons a rest ih =>
    cases rest with
    | nil =>
      show (if a = '*' ∧ ('*' : Char) = '/' then some ('/' :: s)
        else dropThroughStarSlash ('*' :: '/' :: s)) = some s
      rw [if_neg (by simp)]
      show (if ('*' : Char) = '*' ∧ ('/' : Char) = '/' then some s
        else dropThroughStarSlash ('/' :: s)) = some s
      rw [if_pos ⟨rfl, rfl⟩]
    | cons b rest2 =>
      have hab : ¬(a = '*' ∧ b = '/') := by
        intro hc
        rw [noStarSlash.eq_def] at h
        simp only at h
        rw [if_pos hc] at h
        exact Bool.false_ne_true h
      have hrest : noStarSlash (b :: rest2) = true := by
        rw [noStarSlash.eq_def] at h
        simp only at h
        rw [if_neg hab] at h
        exact h
      have hgoal : dropThroughStarSlash (a :: b :: (rest2 ++ '*' :: '/' :: s)) =
          if a = '*' ∧ b = '/' then some (rest2 ++ '*' :: '/' :: s)
          else dropThroughStarSlash (b :: (rest2 ++ '*' :: '/' :: s)) := rfl
      simp only [List.cons_append]
      rw [hgoal, if_neg hab]
      have := ih hrest
      simpa using this

theorem skipLayoutF_layout {L : List Char} (hL : Layout L) :
    ∀ {r : List Char}, LayoutBoundary r → ∀ fuel, L.length < fuel →
      skipLayoutF fuel (L ++ r) = some r := by
  induction hL with
  | nil =>
    intro r hr fuel hf
    obtain ⟨f, rfl⟩ : ∃ f, fuel = f + 1 := ⟨fuel - 1, by omega⟩
    rw [List.nil_append]
    cases r with
    | nil => rfl
    | cons c rest =>
      obtain ⟨hws, hsl⟩ := hr
      simp [skipLayoutF, hws, hsl]
  | ws hws hlay ih =>
    rename_i c s
    intro r hr fuel hf
    obtain ⟨f, rfl⟩ : ∃ f, fuel = f + 1 := ⟨fuel - 1, by omega⟩
    rw [List.cons_append]
    simp only [skipLayoutF, hws, if_true]
    refine ih hr f ?_
    simp only [List.length_cons] at hf
    omega
  | line hbody hlay ih =>
    rename_i body s
    intro r hr fuel hf
    obtain ⟨f, rfl⟩ : ∃ f, fuel = f + 1 := ⟨fuel - 1, by omega⟩
    have e1 : ('/' :: '/' :: (body ++ '\n' :: s)) ++ r =
        '/' :: '/' :: (body ++ '\n' :: (s ++ r)) := by simp
    have hdw := dropWhile_until_nl hbody (s ++ r)
    rw [e1]
    simp only [skipLayoutF, show isWsJsonc '/' = false by decide, Bool.false_eq_true, if_false,
      reduceIte, hdw]
    simp only [List.length_cons, List.length_append] at hf
    obtain ⟨f2, rfl⟩ : ∃ f2, f = f2 + 1 := ⟨f - 1, by omega⟩
    simp only [skipLayoutF, show isWsJsonc '\n' = true by decide, if_true]
    refine ih hr f2 ?_
    omega
  | block hbody hlay ih =>
    rename_i body s
    intro r hr fuel hf
    obtain ⟨f, rfl⟩ : ∃ f, fuel = f + 1 := ⟨fuel - 1, by omega⟩
    have e1 : ('/' :: '*' :: (body ++ '*' :: '/' :: s)) ++ r =
        '/' :: '*' :: (body ++ '*' :: '/' :: (s ++ r)) := by simp
    have hdt := dropThroughStarSlash_closes hbody (s ++ r)
    rw [e1]
    simp only [skipLayoutF, show isWsJsonc '/' = false by decide, Bool.false_eq_true, if_false,
      reduceIte, hdt]
    refine ih hr f ?_
    simp only [List.length_cons, List.length_append] at hf
    omega

theorem skipLayout_layout {L : List Char} (hL : Layout L) :
    ∀ {r : List Char}, LayoutBoundary r → skipLayout (L ++ r) = some r := by
  intro r hr
  exact skipLayoutF_layout hL hr ((L ++ r).length + 1) (by simp only [List.length_append]; omega)

theorem parseStrBody_strR {sv e : List Char} (h : StrR sv e) :
    ∀ r, parseStrBody (e ++ r) = some (sv, r) := by
  induction h with
  | done =>
    intro r
    simp only [List.cons_append, List.nil_append]
    rw [parseStrBody.eq_def]
    simp
  | chr hq hb hge hsr ih =>
    rename_i c0 sv2 e2
    intro r
    rw [List.cons_append, parseStrBody.eq_def]
    simp only [hq, hb, Bool.false_eq_true, if_false, reduceIte, ih r]
    rfl
  | esc hdec hsr ih =>
    rename_i c0 ec sv2 e2
    intro r
    have hu : ec ≠ 'u' := by
      intro he
      rw [he] at hdec
      simp [escDecodeChar] at hdec
    simp only [List.cons_append]
    rw [parseStrBody.eq_def]
    simp only [show ¬(('\\' : Char) = '"') by decide, Bool.false_eq_true, if_false, reduceIte,
      hu, hdec, ih r]
    rfl

/-- A list whose head (if any) is not a digit. -/
def HeadNotDigit : List Char → Prop
  | [] => True
  | c :: _ => isDigit c = false

/-- A list whose head (if any) cannot extend a number literal. -/
def SafeAfterNum : List Char → Prop
  | [] => True
  | c :: _ => isDigit c = false ∧ c ≠ '.' ∧ c ≠ 'e' ∧ c ≠ 'E'

theorem headNotDigit_of_safe {r : List Char} (h : SafeAfterNum r) : HeadNotDigit r := by
  cases r with
  | nil => trivial
  | cons c rest => exact h.1

theorem takeDigits_exact {ds : List Char} (hds : ∀ d ∈ ds, isDigit d = true) :
    ∀ {rest : List Char}, HeadNotDigit rest → takeDigits (ds ++ rest) = (ds, rest) := by
  induction ds with
  | nil =>
    intro rest hrest
    cases rest with
    | nil => rfl
    | cons c r =>
      simp only [HeadNotDigit] at hrest
      simp [takeDigits, List.takeWhile_cons, List.dropWhile_cons, hrest]
  | cons d ds2 ih =>
    intro rest hrest
    have hd : isDigit d = true := hds d (List.mem_cons_self d ds2)
    have hds2 : ∀ x ∈ ds2, isDigit x = true := fun x hx => hds x (List.mem_cons_of_mem d hx)
    have h2 := ih hds2 hrest
    simp only [takeDigits, Prod.mk.injEq] at h2 ⊢
    simp [List.takeWhile_cons, List.dropWhile_cons, hd, h2.1, h2.2]

theorem parseExpPart_expLit {ex : List Char} (hex : ExpLit ex) {rest : List Char}
    (hrest : SafeAfterNum rest) (acc : List Char) :
    parseExpPart acc (ex ++ rest) = some (acc ++ ex, rest) := by
  cases hex with
  | none =>
    rw [List.nil_append, List.append_nil]
    cases rest with
    | nil => rfl
    | cons c r =>
      obtain ⟨_, _, he, hE⟩ := hrest
      simp only [parseExpPart]
      rw [if_neg (by simp [he, hE])]
  | exp he hsgn hds hdig =>
    rename_i e sgn ds
    have hnd := headNotDigit_of_safe hrest
    have htd : takeDigits (ds ++ rest) = (ds, rest) := takeDigits_exact hdig hnd
    rw [List.cons_append, parseExpPart.eq_def]
    simp only
    rw [if_pos he]
    rcases hsgn with rfl | rfl | rfl
    · rw [List.nil_append]
      cases ds with
      | nil => exact absurd rfl hds
      | cons d0 ds2 =>
        have hd0 : isDigit d0 = true := hdig d0 (List.mem_cons_self d0 ds2)
        have hplus : d0 ≠ '+' := by intro hq; rw [hq] at hd0; simp [isDigit] at hd0
        have hminus : d0 ≠ '-' := by intro hq; rw [hq] at hd0; simp [isDigit] at hd0
        simp only [List.cons_append, hplus, hminus, Bool.false_eq_true, if_false, reduceIte]
        rw [show d0 :: (ds2 ++ rest) = (d0 :: ds2) ++ rest from rfl, htd]
        rw [if_neg (by simp)]
        simp
    · simp only [List.cons_append, List.nil_append, reduceIte, htd]
      rw [if_neg hds]
    · simp only [List.cons_append, List.nil_append,
        show (('-' : Char) = '+') = False by simp, if_false, reduceIte, htd]
      rw [if_neg hds]

theorem parseFracPart_fracLit {fr ex : List Char} (hfr : FracLit fr) (hex : ExpLit ex)
    {rest : List Char} (hrest : SafeAfterNum rest) (acc : List Char) :
    parseFracPart acc (fr ++ (ex ++ rest)) = some (acc ++ (fr ++ ex), rest) := by
  cases hfr with
  | none =>
    rw [List.nil_append]
    have hstep := parseExpPart_expLit hex hrest acc
    rw [List.nil_append]
    cases hexx : (ex ++ rest) with
    | nil =>
      rw [hexx] at hstep
      simpa [parseFracPart] using hstep
    | cons c r =>
      have hdot : c ≠ '.' := by
        cases hex with
        | none =>
          rw [List.nil_append] at hexx
          subst hexx
          exact hrest.2.1
        | exp he hsgn hds hdig =>
          rw [List.cons_append] at hexx
          cases hexx
          rcases he with rfl | rfl <;> decide
      rw [hexx] at hstep
      simp only [parseFracPart, hdot, Bool.false_eq_true, if_false, reduceIte]
      exact hstep
  | frac hds hdig =>
    rename_i ds
    have hnd : HeadNotDigit (ex ++ rest) := by
      cases hex with
      | none =>
        rw [List.nil_append]
        exact headNotDigit_of_safe hrest
      | exp he hsgn hds2 hdig2 =>
        rw [List.cons_append]
        rcases he with rfl | rfl <;> simp [HeadNotDigit, isDigit]
    have htd : takeDigits (ds ++ (ex ++ rest)) = (ds, ex ++ rest) := takeDigits_exact hdig hnd
    have hstep := parseExpPart_expLit hex hrest (acc ++ '.' :: ds)
    rw [List.cons_append, parseFracPart.eq_def]
    simp only [reduceIte, htd]
    rw [if_neg hds, hstep]
    simp

theorem parseNumber_numLit {lit : List Char} (h : NumLit lit) {rest : List Char}
    (hrest : SafeAfterNum rest) : parseNumber (lit ++ rest) = some (lit, rest) := by
  cases h with
  | mk hsgn hip hfr hex =>
    rename_i sgn ip fr ex
    have hip_ne : ip ≠ [] := by cases hip <;> simp
    have hip_dig : ∀ d ∈ ip, isDigit d = true := by
      cases hip with
      | zero => intro d hd; simp at hd; subst hd; decide
      | pos h1 h9 hds =>
        rename_i c ds
        intro d hd
        rcases List.mem_cons.mp hd with rfl | hd2
        · simp only [isDigit, Bool.and_eq_true, decide_eq_true_eq]
          exact ⟨le_trans (by decide) h1, h9⟩
        · exact hds d hd2
    have hnd : HeadNotDigit (fr ++ (ex ++ rest)) := by
      cases hfr with
      | none =>
        rw [List.nil_append]
        cases hex with
        | none =>
          rw [List.nil_append]
          exact headNotDigit_of_safe hrest
        | exp he hsgn2 hds2 hdig2 =>
          rw [List.cons_append]
          rcases he with rfl | rfl <;> simp [HeadNotDigit, isDigit]
      | frac hds2 hdig2 =>
        rw [List.cons_append]
        simp [HeadNotDigit, isDigit]
    have htd : takeDigits (ip ++ (fr ++ (ex ++ rest))) = (ip, fr ++ (ex ++ rest)) :=
      takeDigits_exact hip_dig hnd
    have hfp := parseFracPart_fracLit hfr hex hrest
    rcases hsgn with rfl | rfl
    · rw [List.nil_append]
      cases hipc : ip with
      | nil => exact absurd hipc hip_ne
      | cons c ds =>
        have hc : isDigit c = true := by
          rw [hipc] at hip_dig
          exact hip_dig c (List.mem_cons_self c ds)
        have hcm : c ≠ '-' := by intro hq; rw [hq] at hc; simp [isDigit] at hc
        subst hipc
        have hsplit : ((c :: ds) ++ (fr ++ ex)) ++ rest = (c :: ds) ++ (fr ++ (ex ++ rest)) := by
          simp
        rw [hsplit, List.cons_append, parseNumber.eq_def]
        simp only [hcm, Bool.false_eq_true, if_false, reduceIte]
        rw [show c :: (ds ++ (fr ++ (ex ++ rest))) = (c :: ds) ++ (fr ++ (ex ++ rest)) from rfl]
        rw [htd]
        simp only
        rw [if_neg hip_ne]
        simp only [List.nil_append]
        rw [hfp (c :: ds)]
    · have hsplit : ((['-'] : List Char) ++ (ip ++ (fr ++ ex))) ++ rest =
          '-' :: (ip ++ (fr ++ (ex ++ rest))) := by simp
      rw [hsplit, parseNumber.eq_def]
      simp only [reduceIte, htd, List.singleton_append]
      rw [if_neg hip_ne, hfp ('-' :: ip)]
      simp

/-- The characters a value rendering can start with. -/
def ValueStart (c : Char) : Prop :=
  c = '"' ∨ c = '{' ∨ c = '[' ∨ c = 't' ∨ c = 'f' ∨ c = 'n' ∨ c = '-' ∨ isDigit c = true

theorem numLit_head {lit : List Char} (h : NumLit lit) :
    ∃ c r, lit = c :: r ∧ (c = '-' ∨ isDigit c = true) := by
  cases h with
  | mk hsgn hip hfr hex =>
    rename_i sgn ip fr ex
    rcases hsgn with rfl | rfl
    · cases hip with
      | zero => exact ⟨'0', fr ++ ex, by simp, Or.inr (by decide)⟩
      | pos h1 h9 hds =>
        rename_i c ds
        refine ⟨c, ds ++ (fr ++ ex), by simp, Or.inr ?_⟩
        simp only [isDigit, Bool.and_eq_true, decide_eq_true_eq]
        exact ⟨le_trans (by decide) h1, h9⟩
    · exact ⟨'-', ip ++ (fr ++ ex), by simp, Or.inl rfl⟩

theorem gram_val_head {v : JVal} {s : List Char} (h : Gram (.val v) s) :
    ∃ c r, s = c :: r ∧ ValueStart c := by
  cases h with
  | str hsr => exact ⟨'"', _, rfl, Or.inl rfl⟩
  | tru => exact ⟨'t', _, rfl, by simp [ValueStart]⟩
  | fls => exact ⟨'f', _, rfl, by simp [ValueStart]⟩
  | nul => exact ⟨'n', _, rfl, by simp [ValueStart]⟩
  | num hnum =>
    obtain ⟨c, r, rfl, hc⟩ := numLit_head hnum
    refine ⟨c, r, rfl, ?_⟩
    rcases hc with rfl | hd
    · simp [ValueStart]
    · simp [ValueStart, hd]
  | objEmpty hL => exact ⟨'{', _, rfl, by simp [ValueStart]⟩
  | objNE hL hm hn => exact ⟨'{', _, rfl, by simp [ValueStart]⟩
  | arrEmpty hL => exact ⟨'[', _, rfl, by simp [ValueStart]⟩
  | arrNE hL hi => exact ⟨'[', _, rfl, by simp [ValueStart]⟩

theorem gram_mems_head {kvs : List (List Char × JVal)} {ms : List Char}
    (h : Gram (.mems kvs) ms) : ∃ r, ms = '"' :: r := by
  cases h with
  | memLast hk hL1 hL2 hv hL3 => exact ⟨_, rfl⟩
  | memLastComma hk hL1 hL2 hv hL3 hL4 => exact ⟨_, rfl⟩
  | memCons hk hL1 hL2 hv hL3 hL4 hm => exact ⟨_, rfl⟩

theorem valueStart_facts {c : Char} (h : ValueStart c) :
    isWsJsonc c = false ∧ c ≠ '/' ∧ c ≠ '}' ∧ c ≠ ']' := by
  rcases h with rfl | rfl | rfl | rfl | rfl | rfl | rfl | hd
  · exact ⟨by decide, by decide, by decide, by decide⟩
  · exact ⟨by decide, by decide, by decide, by decide⟩
  · exact ⟨by decide, by decide, by decide, by decide⟩
  · exact ⟨by decide, by decide, by decide, by decide⟩
  · exact ⟨by decide, by decide, by decide, by decide⟩
  · exact ⟨by decide, by decide, by decide, by decide⟩
  · exact ⟨by decide, by decide, by decide, by decide⟩
  · refine ⟨?_, ?_, ?_, ?_⟩
    · simp only [isWsJsonc, Bool.or_eq_false_iff, decide_eq_false_iff_not]
      refine ⟨⟨⟨?_, ?_⟩, ?_⟩, ?_⟩ <;> (intro h2; rw [h2] at hd; exact absurd hd (by decide))
    · intro h2; rw [h2] at hd; exact absurd hd (by decide)
    · intro h2; rw [h2] at hd; exact absurd hd (by decide)
    · intro h2; rw [h2] at hd; exact absurd hd (by decide)

theorem numHead_ne {c : Char} (hcd : c = '-' ∨ isDigit c = true) :
    c ≠ '"' ∧ c ≠ '{' ∧ c ≠ '[' ∧ c ≠ 't' ∧ c ≠ 'f' ∧ c ≠ 'n' := by
  rcases hcd with rfl | hd
  · exact ⟨by decide, by decide, by decide, by decide, by decide, by decide⟩
  · refine ⟨?_, ?_, ?_, ?_, ?_, ?_⟩ <;> (intro h2; rw [h2] at hd; exact absurd hd (by decide))

theorem safeAfterNum_layout {L : List Char} (hL : Layout L) {r : List Char}
    (hr : SafeAfterNum r) : SafeAfterNum (L ++ r) := by
  cases hL with
  | nil => exact hr
  | ws hws hrest =>
    rename_i c s
    have hc : ((c = ' ' ∨ c = '\t') ∨ c = '\n') ∨ c = '\r' := by
      simpa [isWsJsonc] using hws
    rcases hc with ((rfl | rfl) | rfl) | rfl <;>
      exact ⟨by decide, by decide, by decide, by decide⟩
  | line hbody hrest => exact ⟨by decide, by decide, by decide, by decide⟩
  | block hbody hrest => exact ⟨by decide, by decide, by decide, by decide⟩

theorem gram_itms_head {xs : List JVal} {is : List Char} (h : Gram (.itms xs) is) :
    ∃ c r, is = c :: r ∧ ValueStart c := by
  cases h with
  | itmLast hv hL1 =>
    obtain ⟨c, vr, hvs, hcs⟩ := gram_val_head hv
    exact ⟨c, _, by rw [hvs, List.cons_append], hcs⟩
  | itmLastComma hv hL1 hL2 =>
    obtain ⟨c, vr, hvs, hcs⟩ := gram_val_head hv
    exact ⟨c, _, by rw [hvs, List.cons_append], hcs⟩
  | itmCons hv hL1 hL2 hi =>
    obtain ⟨c, vr, hvs, hcs⟩ := gram_val_head hv
    exact ⟨c, _, by rw [hvs, List.cons_append], hcs⟩

/-- The statement proved about each grammar production by `gram_sound`. -/
def ParseGoal (t : GT) (fuel : Nat) (input : List Char) (rest : List Char) : Prop :=
  match t with
  | .val v => SafeAfterNum rest → parseVal fuel input = some (v, rest)
  | .mems kvs => parseMembers fuel input = some (kvs, rest)
  | .itms xs => parseItems fuel input = some (xs, rest)

/-- Soundness of the modelled lenient parser over the well-formedness grammar:
every well-formed rendering parses back to exactly its value, consuming
exactly itself. -/
theorem gram_sound {t : GT} {s : List Char} (h : Gram t s) :
    ∀ rest fuel, s.length < fuel → ParseGoal t fuel (s ++ rest) rest := by
  induction h with
  | str hsr =>
    rename_i sv e
    intro rest fuel hlen
    obtain ⟨f, rfl⟩ : ∃ f, fuel = f + 1 := ⟨fuel - 1, by omega⟩
    simp only [ParseGoal]
    intro hsafe
    rw [List.cons_append, parseVal.eq_def]
    simp only [reduceIte, parseStrBody_strR hsr rest]
    rfl
  | tru =>
    intro rest fuel hlen
    obtain ⟨f, rfl⟩ : ∃ f, fuel = f + 1 := ⟨fuel - 1, by omega⟩
    simp only [ParseGoal]
    intro hsafe
    simp only [List.cons_append, List.nil_append]
    rw [parseVal.eq_def]
    simp [List.isPrefixOf]
  | fls =>
    intro rest fuel hlen
    obtain ⟨f, rfl⟩ : ∃ f, fuel = f + 1 := ⟨fuel - 1, by omega⟩
    simp only [ParseGoal]
    intro hsafe
    simp only [List.cons_append, List.nil_append]
    rw [parseVal.eq_def]
    simp [List.isPrefixOf]
  | nul =>
    intro rest fuel hlen
    obtain ⟨f, rfl⟩ : ∃ f, fuel = f + 1 := ⟨fuel - 1, by omega⟩
    simp only [ParseGoal]
    intro hsafe
    simp only [List.cons_append, List.nil_append]
    rw [parseVal.eq_def]
    simp [List.isPrefixOf]
  | num hnum =>
    intro rest fuel hlen
    obtain ⟨f, rfl⟩ : ∃ f, fuel = f + 1 := ⟨fuel - 1, by omega⟩
    simp only [ParseGoal]
    intro hsafe
    have hp := parseNumber_numLit hnum hsafe
    obtain ⟨c, r, hlit, hcd⟩ := numLit_head hnum
    obtain ⟨hne1, hne2, hne3, hne4, hne5, hne6⟩ := numHead_ne hcd
    subst hlit
    simp only [List.cons_append] at hp ⊢
    rw [parseVal.eq_def]
    simp only
    rw [if_neg hne1, if_neg hne2, if_neg hne3, if_neg hne4, if_neg hne5, if_neg hne6,
      if_pos hcd, hp]
    rfl
  | objEmpty hL =>
    intro rest fuel hlen
    obtain ⟨f, rfl⟩ : ∃ f, fuel = f + 1 := ⟨fuel - 1, by omega⟩
    simp only [ParseGoal]
    intro hsafe
    simp only [List.cons_append, List.append_assoc, List.singleton_append, List.nil_append]
    rw [parseVal.eq_def]
    simp only [reduceIte]
    simp only [skipLayout_layout hL (show LayoutBoundary ('}' :: rest) from ⟨by decide, by decide⟩)]
    simp
  | objNE hL hm hnodup ihm =>
    rename_i L ms kvs
    intro rest fuel hlen
    obtain ⟨f, rfl⟩ : ∃ f, fuel = f + 1 := ⟨fuel - 1, by omega⟩
    simp only [ParseGoal]
    intro hsafe
    obtain ⟨mr, hms⟩ := gram_mems_head hm
    subst hms
    have hlen2 : ('"' :: mr).length < f := by
      simp only [List.length_cons, List.length_append] at hlen ⊢
      omega
    have hmem := ihm rest f hlen2
    simp only [ParseGoal, List.cons_append] at hmem
    simp only [List.cons_append, List.append_assoc]
    rw [parseVal.eq_def]
    simp only [reduceIte]
    simp only [skipLayout_layout hL (show LayoutBoundary ('"' :: (mr ++ rest)) from ⟨by decide, by decide⟩)]
    simp only [reduceIte, hmem]
    rfl
  | arrEmpty hL =>
    intro rest fuel hlen
    obtain ⟨f, rfl⟩ : ∃ f, fuel = f + 1 := ⟨fuel - 1, by omega⟩
    simp only [ParseGoal]
    intro hsafe
    simp only [List.cons_append, List.append_assoc, List.singleton_append, List.nil_append]
    rw [parseVal.eq_def]
    simp only [reduceIte]
    simp only [skipLayout_layout hL (show LayoutBoundary (']' :: rest) from ⟨by decide, by decide⟩)]
    simp
  | arrNE hL hi ihi =>
    rename_i L is xs
    intro rest fuel hlen
    obtain ⟨f, rfl⟩ : ∃ f, fuel = f + 1 := ⟨fuel - 1, by omega⟩
    simp only [ParseGoal]
    intro hsafe
    obtain ⟨c, ir, his, hcs⟩ := gram_itms_head hi
    obtain ⟨hws, hsl, hbr, hbk⟩ := valueStart_facts hcs
    subst his
    have hlen2 : (c :: ir).length < f := by
      simp only [List.length_cons, List.length_append] at hlen ⊢
      omega
    have hitm := ihi rest f hlen2
    simp only [ParseGoal, List.cons_append] at hitm
    simp only [List.cons_append, List.append_assoc]
    rw [parseVal.eq_def]
    simp only [reduceIte]
    simp only [skipLayout_layout hL (show LayoutBoundary (c :: (ir ++ rest)) from ⟨hws, hsl⟩)]
    simp only [if_neg hbk, hitm]
    rfl
  | memLast hk hL1 hL2 hv hL3 ihv =>
    rename_i k ke L1 L2 vs L3 v
    intro rest fuel hlen
    obtain ⟨f, rfl⟩ : ∃ f, fuel = f + 1 := ⟨fuel - 1, by omega⟩
    simp only [ParseGoal]
    obtain ⟨c, vr, hvs, hcs⟩ := gram_val_head hv
    obtain ⟨hws, hsl, hbr, hbk⟩ := valueStart_facts hcs
    have hb : LayoutBoundary (vs ++ (L3 ++ ('}' :: rest))) := by
      rw [hvs, List.cons_append]
      exact ⟨hws, hsl⟩
    have hsafe2 : SafeAfterNum (L3 ++ ('}' :: rest)) :=
      safeAfterNum_layout hL3 ⟨by decide, by decide, by decide, by decide⟩
    have hlen2 : vs.length < f := by
      simp only [List.length_cons, List.length_append] at hlen ⊢
      omega
    have hval := ihv (L3 ++ ('}' :: rest)) f hlen2
    simp only [ParseGoal] at hval
    have hval2 := hval hsafe2
    simp only [List.cons_append, List.append_assoc, List.singleton_append, List.nil_append]
    rw [parseMembers.eq_def]
    simp only [reduceIte, parseStrBody_strR hk]
    simp only [skipLayout_layout hL1 (show LayoutBoundary (':' :: (L2 ++ (vs ++ (L3 ++ ('}' :: rest)))))
      from ⟨by decide, by decide⟩)]
    simp only [reduceIte]
    simp only [skipLayout_layout hL2 hb, hval2]
    simp only [skipLayout_layout hL3 (show LayoutBoundary ('}' :: rest) from ⟨by decide, by decide⟩)]
    simp
  | memLastComma hk hL1 hL2 hv hL3 hL4 ihv =>
    rename_i k ke L1 L2 vs L3 L4 v
    intro rest fuel hlen
    obtain ⟨f, rfl⟩ : ∃ f, fuel = f + 1 := ⟨fuel - 1, by omega⟩
    simp only [ParseGoal]
    obtain ⟨c, vr, hvs, hcs⟩ := gram_val_head hv
    obtain ⟨hws, hsl, hbr, hbk⟩ := valueStart_facts hcs
    have hb : LayoutBoundary (vs ++ (L3 ++ (',' :: (L4 ++ ('}' :: rest))))) := by
      rw [hvs, List.cons_append]
      exact ⟨hws, hsl⟩
    have hsafe2 : SafeAfterNum (L3 ++ (',' :: (L4 ++ ('}' :: rest)))) :=
      safeAfterNum_layout hL3 ⟨by decide, by decide, by decide, by decide⟩
    have hlen2 : vs.length < f := by
      simp only [List.length_cons, List.length_append] at hlen ⊢
      omega
    have hval := ihv (L3 ++ (',' :: (L4 ++ ('}' :: rest)))) f hlen2
    simp only [ParseGoal] at hval
    have hval2 := hval hsafe2
    simp only [List.cons_append, List.append_assoc, List.singleton_append, List.nil_append]
    rw [parseMembers.eq_def]
    simp only [reduceIte, parseStrBody_strR hk]
    simp only [skipLayout_layout hL1 (show LayoutBoundary
      (':' :: (L2 ++ (vs ++ (L3 ++ (',' :: (L4 ++ ('}' :: rest)))))))
      from ⟨by decide, by decide⟩)]
    simp only [reduceIte]
    simp only [skipLayout_layout hL2 hb, hval2]
    simp only [skipLayout_layout hL3 (show LayoutBoundary (',' :: (L4 ++ ('}' :: rest)))
      from ⟨by decide, by decide⟩)]
    simp only [reduceIte]
    simp only [skipLayout_layout hL4 (show LayoutBoundary ('}' :: rest) from ⟨by decide, by decide⟩)]
    simp
  | memCons hk hL1 hL2 hv hL3 hL4 hm ihv ihm =>
    rename_i k ke L1 L2 vs L3 L4 ms v kvs
    intro rest fuel hlen
    obtain ⟨f, rfl⟩ : ∃ f, fuel = f + 1 := ⟨fuel - 1, by omega⟩
    simp only [ParseGoal]
    obtain ⟨c, vr, hvs, hcs⟩ := gram_val_head hv
    obtain ⟨hws, hsl, hbr, hbk⟩ := valueStart_facts hcs
    obtain ⟨mr, hms⟩ := gram_mems_head hm
    subst hms
    have hb : LayoutBoundary (vs ++ (L3 ++ (',' :: (L4 ++ ('"' :: (mr ++ rest)))))) := by
      rw [hvs, List.cons_append]
      exact ⟨hws, hsl⟩
    have hsafe2 : SafeAfterNum (L3 ++ (',' :: (L4 ++ ('"' :: (mr ++ rest))))) :=
      safeAfterNum_layout hL3 ⟨by decide, by decide, by decide, by decide⟩
    have hlen2 : vs.length < f := by
      simp only [List.length_cons, List.length_append] at hlen ⊢
      omega
    have hlen3 : ('"' :: mr).length < f := by
      simp only [List.length_cons, List.length_append] at hlen ⊢
      omega
    have hval := ihv (L3 ++ (',' :: (L4 ++ ('"' :: (mr ++ rest))))) f hlen2
    simp only [ParseGoal] at hval
    have hval2 := hval hsafe2
    have hmem := ihm rest f hlen3
    simp only [ParseGoal, List.cons_append] at hmem
    simp only [List.cons_append, List.append_assoc, List.singleton_append, List.nil_append]
    rw [parseMembers.eq_def]
    simp only [reduceIte, parseStrBody_strR hk]
    simp only [skipLayout_layout hL1 (show LayoutBoundary
      (':' :: (L2 ++ (vs ++ (L3 ++ (',' :: (L4 ++ ('"' :: (mr ++ rest))))))))
      from ⟨by decide, by decide⟩)]
    simp only [reduceIte]
    simp only [skipLayout_layout hL2 hb, hval2]
    simp only [skipLayout_layout hL3 (show LayoutBoundary (',' :: (L4 ++ ('"' :: (mr ++ rest))))
      from ⟨by decide, by decide⟩)]
    simp only [reduceIte]
    simp only [skipLayout_layout hL4 (show LayoutBoundary ('"' :: (mr ++ rest))
      from ⟨by decide, by decide⟩)]
    simp only [reduceIte, hmem]
    rfl
  | itmLast hv hL1 ihv =>
    rename_i vs L1 v
    intro rest fuel hlen
    obtain ⟨f, rfl⟩ : ∃ f, fuel = f + 1 := ⟨fuel - 1, by omega⟩
    simp only [ParseGoal]
    have hsafe2 : SafeAfterNum (L1 ++ (']' :: rest)) :=
      safeAfterNum_layout hL1 ⟨by decide, by decide, by decide, by decide⟩
    have hlen2 : vs.length < f := by
      simp only [List.length_cons, List.length_append] at hlen ⊢
      omega
    have hval := ihv (L1 ++ (']' :: rest)) f hlen2
    simp only [ParseGoal] at hval
    have hval2 := hval hsafe2
    simp only [List.cons_append, List.append_assoc, List.singleton_append, List.nil_append]
    rw [parseItems.eq_def]
    simp only [reduceIte, hval2]
    simp only [skipLayout_layout hL1 (show LayoutBoundary (']' :: rest) from ⟨by decide, by decide⟩)]
    simp
  | itmLastComma hv hL1 hL2 ihv =>
    rename_i vs L1 L2 v
    intro rest fuel hlen
    obtain ⟨f, rfl⟩ : ∃ f, fuel = f + 1 := ⟨fuel - 1, by omega⟩
    simp only [ParseGoal]
    have hsafe2 : SafeAfterNum (L1 ++ (',' :: (L2 ++ (']' :: rest)))) :=
      safeAfterNum_layout hL1 ⟨by decide, by decide, by decide, by decide⟩
    have hlen2 : vs.length < f := by
      simp only [List.length_cons, List.length_append] at hlen ⊢
      omega
    have hval := ihv (L1 ++ (',' :: (L2 ++ (']' :: rest)))) f hlen2
    simp only [ParseGoal] at hval
    have hval2 := hval hsafe2
    simp only [List.cons_append, List.append_assoc, List.singleton_append, List.nil_append]
    rw [parseItems.eq_def]
    simp only [reduceIte, hval2]
    simp only [skipLayout_layout hL1 (show LayoutBoundary (',' :: (L2 ++ (']' :: rest)))
      from ⟨by decide, by decide⟩)]
    simp only [reduceIte]
    simp only [skipLayout_layout hL2 (show LayoutBoundary (']' :: rest) from ⟨by decide, by decide⟩)]
    simp
  | itmCons hv hL1 hL2 hi ihv ihi =>
    rename_i vs L1 L2 is v xs
    intro rest fuel hlen
    obtain ⟨f, rfl⟩ : ∃ f, fuel = f + 1 := ⟨fuel - 1, by omega⟩
    simp only [ParseGoal]
    obtain ⟨c, ir, his, hcs⟩ := gram_itms_head hi
    obtain ⟨hws, hsl, hbr, hbk⟩ := valueStart_facts hcs
    subst his
    have hsafe2 : SafeAfterNum (L1 ++ (',' :: (L2 ++ (c :: ir ++ rest)))) :=
      safeAfterNum_layout hL1 ⟨by decide, by decide, by decide, by decide⟩
    have hlen2 : vs.length < f := by
      simp only [List.length_cons, List.length_append] at hlen ⊢
      omega
    have hlen3 : (c :: ir).length < f := by
      simp only [List.length_cons, List.length_append] at hlen ⊢
      omega
    have hval := ihv (L1 ++ (',' :: (L2 ++ (c :: ir ++ rest)))) f hlen2
    simp only [ParseGoal] at hval
    have hval2 := hval hsafe2
    have hitm := ihi rest f hlen3
    simp only [ParseGoal, List.cons_append] at hitm
    simp only [List.cons_append, List.append_assoc, List.singleton_append, List.nil_append]
    rw [parseItems.eq_def]
    simp only [reduceIte]
    rw [show vs ++ (L1 ++ (',' :: (L2 ++ (c :: (ir ++ rest))))) =
      vs ++ (L1 ++ (',' :: (L2 ++ (c :: ir ++ rest)))) by simp]
    rw [hval2]
    simp only [skipLayout_layout hL1 (show LayoutBoundary (',' :: (L2 ++ (c :: ir ++ rest)))
      from ⟨by decide, by decide⟩)]
    simp only [reduceIte]
    simp only [skipLayout_layout hL2 (show LayoutBoundary (c :: ir ++ rest) from
      (by rw [List.cons_append]; exact ⟨hws, hsl⟩))]
    simp only [reduceIte, List.cons_append]
    simp only [if_neg hbk, hitm]
    rfl

theorem jsoncParse_renders {v : JVal} {core L1 L2 : List Char}
    (hv : Gram (.val v) core) (h1 : Layout L1) (h2 : Layout L2) :
    jsoncParse (String.mk (L1 ++ (core ++ L2))) = (some v, []) := by
  obtain ⟨c, r, hcs, hstart⟩ := gram_val_head hv
  obtain ⟨hws, hsl, hbr, hbk⟩ := valueStart_facts hstart
  have hb1 : LayoutBoundary (core ++ L2) := by
    rw [hcs, List.cons_append]
    exact ⟨hws, hsl⟩
  have hskip1 : skipLayout (L1 ++ (core ++ L2)) = some (core ++ L2) := skipLayout_layout h1 hb1
  have hsafe : SafeAfterNum L2 := by
    have h3 := safeAfterNum_layout h2 (show SafeAfterNum [] from trivial)
    simpa using h3
  have hpv := gram_sound hv L2 ((core ++ L2).length + 1)
    (by simp only [List.length_append]; omega)
  simp only [ParseGoal] at hpv
  have hpv2 := hpv hsafe
  have hskip2 : skipLayout L2 = some [] := by
    have h3 := skipLayout_layout h2 (show LayoutBoundary [] from trivial)
    simpa using h3
  simp only [jsoncParse]
  simp only [hskip1, hpv2, hskip2]

/-- A well-formed JSON-with-comments document: one well-formed value
surrounded by layout (whitespace, `//` and `/* */` comments). -/
def RendersDoc (v : JVal) (text : String) : Prop :=
  ∃ L1 core L2, Layout L1 ∧ Gram (.val v) core ∧ Layout L2 ∧
    text.data = L1 ++ (core ++ L2)

theorem jsoncParse_rendersDoc {v : JVal} {text : String} (h : RendersDoc v text) :
    jsoncParse text = (some v, []) := by
  obtain ⟨L1, core, L2, h1, hv, h2, htext⟩ := h
  have heq : text = String.mk (L1 ++ (core ++ L2)) := congrArg String.mk htext
  rw [heq]
  exact jsoncParse_renders hv h1 h2

end GenSnippet

/-- **C2.** For every input text `T`, the escaper returns one output string per
line of `T` (the number of output strings is the number of `'\n'` characters
plus one, and the output is exactly the map of the per-line transformation —
backslash, then quote, then tab escaping, then carriage-return stripping —
over the lines of `T`); no output line contains a raw unescaped backslash,
unescaped double quote, tab character, or carriage-return character. -/
theorem C2_escaper_shape_and_safety (text : String) :
    GenSnippet.escapeSnippetText text =
      (GenSnippet.splitNl text.data).map GenSnippet.escapeLine ∧
    (GenSnippet.escapeSnippetText text).length = text.data.count '\n' + 1 ∧
    ∀ l ∈ GenSnippet.escapeSnippetText text,
      GenSnippet.escOk l = true ∧ '\t' ∉ l ∧ '\r' ∉ l := by
  refine ⟨rfl, ?_, ?_⟩
  · simp [GenSnippet.escapeSnippetText, GenSnippet.splitNl,
      GenSnippet.length_splitOnChar]
  · intro l hl
    simp only [GenSnippet.escapeSnippetText, List.mem_map] at hl
    obtain ⟨raw, _, rfl⟩ := hl
    exact ⟨GenSnippet.escOk_escapeLine raw, GenSnippet.tab_not_mem_escapeLine raw,
      GenSnippet.cr_not_mem_escapeLine raw⟩

namespace GenSnippet

theorem mergeSnippets_nil (n : List Char) (e : JVal) : mergeSnippets [] n e = [(n, e)] := by
  simp [mergeSnippets]

theorem mergeSnippets_cons_ne {k0 : List Char} (v0 : JVal) (rest : List (List Char × JVal))
    {n : List Char} (e : JVal) (h : k0 ≠ n) :
    mergeSnippets ((k0, v0) :: rest) n e = (k0, v0) :: mergeSnippets rest n e := by
  by_cases ha : (rest.any fun kv => kv.1 = n) = true
  · simp [mergeSnippets, List.any_cons, h, ha]
  · simp [mergeSnippets, List.any_cons, h, ha]

theorem mergeSnippets_cons_eq (v0 : JVal) (rest : List (List Char × JVal))
    {n : List Char} (e : JVal) :
    mergeSnippets ((n, v0) :: rest) n e =
      (n, e) :: rest.map fun kv => if kv.1 = n then (n, e) else kv := by
  simp [mergeSnippets, List.any_cons]

theorem lookupLC_mergeSnippets_self (m : List (List Char × JVal)) (n : List Char) (e : JVal) :
    lookupLC (mergeSnippets m n e) n = some e := by
  induction m with
  | nil => simp [mergeSnippets_nil, lookupLC]
  | cons kv rest ih =>
    obtain ⟨k0, v0⟩ := kv
    by_cases hk : k0 = n
    · subst hk
      rw [mergeSnippets_cons_eq]
      simp [lookupLC]
    · rw [mergeSnippets_cons_ne v0 rest e hk]
      simp only [lookupLC, if_neg hk]
      exact ih

theorem lookupLC_mapUpdate (rest : List (List Char × JVal)) (n : List Char) (e : JVal)
    {k : List Char} (hk : k ≠ n) :
    lookupLC (rest.map fun kv => if kv.1 = n then (n, e) else kv) k = lookupLC rest k := by
  induction rest with
  | nil => rfl
  | cons kv rest2 ih =>
    obtain ⟨k0, v0⟩ := kv
    by_cases h0 : k0 = n
    · subst h0
      have hhead : (if (k0, v0).1 = k0 then (k0, e) else (k0, v0)) = (k0, e) := if_pos rfl
      simp only [List.map_cons, hhead]
      simp only [lookupLC]
      rw [if_neg (fun hq : k0 = k => hk hq.symm), if_neg (fun hq : k0 = k => hk hq.symm)]
      exact ih
    · have hhead : (if (k0, v0).1 = n then (n, e) else (k0, v0)) = (k0, v0) := if_neg h0
      simp only [List.map_cons, hhead]
      simp only [lookupLC]
      by_cases h1 : k0 = k
      · rw [if_pos h1, if_pos h1]
      · rw [if_neg h1, if_neg h1]
        exact ih

theorem lookupLC_mergeSnippets_other (m : List (List Char × JVal)) (n : List Char) (e : JVal)
    {k : List Char} (hk : k ≠ n) :
    lookupLC (mergeSnippets m n e) k = lookupLC m k := by
  induction m with
  | nil =>
    simp only [mergeSnippets_nil, lookupLC]
    rw [if_neg (fun hq : n = k => hk hq.symm)]
  | cons kv rest ih =>
    obtain ⟨k0, v0⟩ := kv
    by_cases h0 : k0 = n
    · subst h0
      rw [mergeSnippets_cons_eq]
      simp only [lookupLC]
      rw [if_neg (fun hq : k0 = k => hk hq.symm), if_neg (fun hq : k0 = k => hk hq.symm)]
      exact lookupLC_mapUpdate rest k0 e hk
    · rw [mergeSnippets_cons_ne v0 rest e h0]
      simp only [lookupLC]
      by_cases h1 : k0 = k
      · simp [h1]
      · rw [if_neg h1, if_neg h1]
        exact ih

theorem keys_mapUpdate (rest : List (List Char × JVal)) (n : List Char) (e : JVal) :
    (rest.map fun kv => if kv.1 = n then (n, e) else kv).map Prod.fst = rest.map Prod.fst := by
  induction rest with
  | nil => rfl
  | cons kv rest2 ih =>
    obtain ⟨k0, v0⟩ := kv
    by_cases h0 : k0 = n
    · subst h0
      have hhead : (if (k0, v0).1 = k0 then (k0, e) else (k0, v0)) = (k0, e) := if_pos rfl
      simp only [List.map_cons, hhead]
      rw [ih]
      simp
    · have hhead : (if (k0, v0).1 = n then (n, e) else (k0, v0)) = (k0, v0) := if_neg h0
      simp only [List.map_cons, hhead]
      rw [ih]

theorem keys_mergeSnippets (m : List (List Char × JVal)) (n : List Char) (e : JVal) :
    (mergeSnippets m n e).map Prod.fst =
      if n ∈ m.map Prod.fst then m.map Prod.fst else m.map Prod.fst ++ [n] := by
  induction m with
  | nil => simp [mergeSnippets_nil]
  | cons kv rest ih =>
    obtain ⟨k0, v0⟩ := kv
    by_cases h0 : k0 = n
    · subst h0
      rw [mergeSnippets_cons_eq]
      simp only [List.map_cons, keys_mapUpdate]
      rw [if_pos (List.mem_cons_self k0 _)]
    · rw [mergeSnippets_cons_ne v0 rest e h0]
      simp only [List.map_cons, ih]
      by_cases h1 : n ∈ rest.map Prod.fst
      · rw [if_pos h1, if_pos (List.mem_cons_of_mem k0 h1)]
      · rw [if_neg h1, if_neg ?hn]
        · simp
        case hn =>
          intro hmem
          rcases List.mem_cons.mp hmem with hq | hq
          · exact h0 hq.symm
          · exact h1 hq

theorem append_json_ne_empty (lang : String) : lang ++ ".json" ≠ "" := by
  intro h
  have h2 := congrArg String.data h
  rw [String.data_append] at h2
  simp at h2

theorem joinSep_infix {s : String} {l : List String} (h : s ∈ l) (sep : String) :
    s.data <:+: (joinSep sep l).data := by
  induction l with
  | nil => cases h
  | cons a rest ih =>
    rcases List.mem_cons.mp h with rfl | hmem
    · cases rest with
      | nil => exact List.infix_refl _
      | cons b rest2 =>
        show s.data <:+: (s ++ sep ++ joinSep sep (b :: rest2)).data
        rw [String.data_append, String.data_append]
        exact ((List.prefix_append s.data _).trans (List.prefix_append _ _)).isInfix
    · cases rest with
      | nil => cases hmem
      | cons b rest2 =>
        show s.data <:+: (a ++ sep ++ joinSep sep (b :: rest2)).data
        rw [String.data_append]
        exact (ih hmem).trans (List.suffix_append _ _).isInfix

end GenSnippet

open GenSnippet

/-- Witness for **C2** at a concrete input: the first line of
`"a\\b\tc\r\nd"` is a member of the escaper's output and satisfies the
safety properties. -/
theorem C2_escaper_witness :
    GenSnippet.escapeLine "a\\b\tc\r".data ∈ GenSnippet.escapeSnippetText "a\\b\tc\r\nd" ∧
    (GenSnippet.escOk (GenSnippet.escapeLine "a\\b\tc\r".data) = true ∧
      '\t' ∉ GenSnippet.escapeLine "a\\b\tc\r".data ∧
      '\r' ∉ GenSnippet.escapeLine "a\\b\tc\r".data) :=
  ⟨by decide, (C2_escaper_shape_and_safety "a\\b\tc\r\nd").2.2 _ (by decide)⟩

/-- **C1 (counterexample).** The prefixes input `", "` filters to zero
non-empty prefixes, yet the flow does *not* abort: `collectSnippetInfo`
returns a result with an empty prefix list, and running the whole command
writes the snippet file. -/
theorem C1_counterexample :
    parsePrefixes ", " = [] ∧
    collectSnippetInfo "python" ⟨some "N", some ", ", none, none⟩ =
      some ⟨"N", [], "N", "python"⟩ ∧
    (generateSnippetCommand true "python" "x" ⟨some "N", some ", ", none, none⟩
        ⟨"Visual Studio Code", "/b"⟩ jsoncMech ⟨fun _ => false, fun _ => none⟩).2 =
      CmdResult.success "N" ∧
    (generateSnippetCommand true "python" "x" ⟨some "N", some ", ", none, none⟩
        ⟨"Visual Studio Code", "/b"⟩ jsoncMech ⟨fun _ => false, fun _ => none⟩).1.files
      "/b/Code/User/snippets/python.json" =
      some "\x7b\n  \"N\": \x7b\n    \"prefix\": [],\n    \"body\": [\n      \"x\"\n    ],\n    \"description\": \"N\"\n  \x7d\n\x7d" := by
  refine ⟨?_, ?_, ?_, ?_⟩
  · rfl
  · rfl
  · rfl
  · rfl

/-- **C1 (amended).** The prefixes input is split on commas, trimmed and
filtered of empties; the flow aborts (as if cancelled, with no file read or
write) exactly when the *raw* prefixes response is cancelled or the empty
string; a non-empty response (even one whose filtered result is empty)
proceeds, with `prefixes` the filtered split. -/
theorem C1_amended (docLang sel : String) (r : PromptResponses) (env : EditorEnv)
    (mech : String → MechResult) (fs : FS) :
    ((r.prefixInput = none ∨ r.prefixInput = some "") →
      collectSnippetInfo docLang r = none ∧
      (sel ≠ "" → generateSnippetCommand true docLang sel r env mech fs = (fs, .cancelled))) ∧
    (∀ nm pi, r.name = some nm → nm ≠ "" → r.prefixInput = some pi → pi ≠ "" →
      collectSnippetInfo docLang r =
        (determineLanguage docLang r.language).map fun lang =>
          { name := nm
            prefixes := parsePrefixes pi
            description :=
              match r.description with
              | some d => if d = "" then nm else d
              | none => nm
            language := lang }) := by
  constructor
  · intro hpre
    have htp : truthyStr r.prefixInput = none := by
      rcases hpre with h1 | h1 <;> rw [h1] <;> simp [truthyStr]
    have hcol : collectSnippetInfo docLang r = none := by
      unfold collectSnippetInfo
      cases truthyStr r.name with
      | none => rfl
      | some nm => rw [htp]
    refine ⟨hcol, fun hsel => ?_⟩
    unfold generateSnippetCommand
    rw [hcol]
    simp [hsel]
  · intro nm pi hname hnm hpre hpi
    unfold collectSnippetInfo
    rw [hname, hpre]
    simp only [truthyStr, if_neg hnm, if_neg hpi]
    cases determineLanguage docLang r.language <;> rfl

/-- Witness for **C1 (amended)** at concrete inputs: an empty prefixes
response aborts with the filesystem untouched, and a non-empty one proceeds
with the filtered prefixes. -/
theorem C1_amended_witness :
    ((some "" : Option String) = none ∨ (some "" : Option String) = some "") ∧
    (collectSnippetInfo "python" ⟨some "N", some "", none, none⟩ = none ∧
      generateSnippetCommand true "python" "x" ⟨some "N", some "", none, none⟩
        ⟨"Visual Studio Code", "/b"⟩ jsoncMech ⟨fun _ => false, fun _ => none⟩ =
        (⟨fun _ => false, fun _ => none⟩, .cancelled)) ∧
    collectSnippetInfo "python" ⟨some "N", some "a, b", none, none⟩ =
      (determineLanguage "python" none).map fun lang =>
        { name := "N", prefixes := parsePrefixes "a, b", description := "N",
          language := lang } := by
  refine ⟨Or.inr rfl, ?_, ?_⟩
  · have h := (C1_amended "python" "x" ⟨some "N", some "", none, none⟩
      ⟨"Visual Studio Code", "/b"⟩ jsoncMech ⟨fun _ => false, fun _ => none⟩).1 (Or.inr rfl)
    exact ⟨h.1, h.2 (by decide)⟩
  · exact (C1_amended "python" "x" ⟨some "N", some "a, b", none, none⟩
      ⟨"Visual Studio Code", "/b"⟩ jsoncMech ⟨fun _ => false, fun _ => none⟩).2
      "N" "a, b" rfl (by decide) rfl (by decide)

/-- **C3.** The parser's failure handling is two-tier: when the mechanism
reports structured errors, the result is null with the formatted diagnostic
(header plus one `Line L, Column C: <code>\n<offending line>` block per
error, joined in report order — see `errorBlock`), which is non-empty and
contains each error's block; when the mechanism throws, the result is the
distinct fatal message carrying the exception's description. -/
theorem C3_two_tier_errors (content : String) (value : Option JVal)
    (errors : List ParseError) (desc : String) (h : errors ≠ []) :
    parseSnippetsFile content (.ok value errors) =
      ⟨none, some (formatParseErrors content errors)⟩ ∧
    formatParseErrors content errors =
      "Parsing errors detected:\n" ++ joinSep "\n" (errors.map (errorBlock content)) ∧
    formatParseErrors content errors ≠ "" ∧
    (∀ e ∈ errors, (errorBlock content e).data <:+: (formatParseErrors content errors).data) ∧
    parseSnippetsFile content (.thrown desc) =
      ⟨none, some ("Fatal parsing error: " ++ desc)⟩ := by
  refine ⟨?_, rfl, ?_, ?_, rfl⟩
  · simp only [parseSnippetsFile]
    rw [if_pos (List.length_pos.mpr h)]
  · intro hempty
    have h3 : ("Parsing errors detected:\n" ++
        joinSep "\n" (errors.map (errorBlock content))).data = "".data :=
      congrArg String.data hempty
    rw [String.data_append] at h3
    simp at h3
  · intro e he
    have hin := joinSep_infix (List.mem_map_of_mem (errorBlock content) he) "\n"
    have hsfx : (joinSep "\n" (errors.map (errorBlock content))).data <:+
        (formatParseErrors content errors).data := by
      show _ <:+ ("Parsing errors detected:\n" ++
        joinSep "\n" (errors.map (errorBlock content))).data
      rw [String.data_append]
      exact List.suffix_append _ _
    exact hin.trans hsfx.isInfix

/-- Witness for **C3** at a concrete error list and content. -/
theorem C3_two_tier_errors_witness :
    ([⟨1, 0, 0⟩] : List ParseError) ≠ [] ∧
    (parseSnippetsFile "\x7bx" (.ok none [⟨1, 0, 0⟩]) =
        ⟨none, some (formatParseErrors "\x7bx" [⟨1, 0, 0⟩])⟩ ∧
      formatParseErrors "\x7bx" [⟨1, 0, 0⟩] =
        "Parsing errors detected:\n" ++
          joinSep "\n" (([⟨1, 0, 0⟩] : List ParseError).map (errorBlock "\x7bx")) ∧
      formatParseErrors "\x7bx" [⟨1, 0, 0⟩] ≠ "" ∧
      (∀ e ∈ ([⟨1, 0, 0⟩] : List ParseError),
        (errorBlock "\x7bx" e).data <:+: (formatParseErrors "\x7bx" [⟨1, 0, 0⟩]).data) ∧
      parseSnippetsFile "\x7bx" (.thrown "boom") =
        ⟨none, some ("Fatal parsing error: " ++ "boom")⟩) :=
  ⟨by decide, C3_two_tier_errors "\x7bx" none [⟨1, 0, 0⟩] "boom" (by decide)⟩

/-- **C4.** When the existing snippet file's content fails to parse
(structured errors or a thrown exception), the save aborts with the
formatted error surfaced and performs no write: the file map is exactly what
it was before the operation. -/
theorem C4_parse_failure_aborts (info : SnippetInfo) (sel : String) (env : EditorEnv)
    (mech : String → MechResult) (fs : FS) (content msg : String)
    (hfile : fs.files (snippetsPathFor env info.language) = some content)
    (herr : (parseSnippetsFile content (mech content)).error = some msg) :
    (saveSnippet info sel env mech fs).2 =
      some ("Error parsing existing snippets: " ++ msg) ∧
    (saveSnippet info sel env mech fs).1.files = fs.files := by
  by_cases hd : fs.dirs (pathDirname (snippetsPathFor env info.language)) = true
  · simp [saveSnippet, hd, hfile, herr]
  · simp [saveSnippet, hd, hfile, herr]

/-- Witness for **C4**: a file whose content makes the mechanism throw; the
save reports the fatal message and the file map is untouched. -/
theorem C4_parse_failure_aborts_witness :
    ((⟨fun _ => false,
        fun p => if p = "/b/Code/User/snippets/python.json" then some "\x7bbad" else none⟩ :
      FS).files (snippetsPathFor ⟨"Visual Studio Code", "/b"⟩ "python") = some "\x7bbad") ∧
    ((parseSnippetsFile "\x7bbad" ((fun _ => MechResult.thrown "boom") "\x7bbad")).error =
      some "Fatal parsing error: boom") ∧
    ((saveSnippet ⟨"N", ["p"], "d", "python"⟩ "x" ⟨"Visual Studio Code", "/b"⟩
        (fun _ => MechResult.thrown "boom")
        ⟨fun _ => false,
          fun p => if p = "/b/Code/User/snippets/python.json" then some "\x7bbad" else none⟩).2 =
      some ("Error parsing existing snippets: " ++ "Fatal parsing error: boom") ∧
      (saveSnippet ⟨"N", ["p"], "d", "python"⟩ "x" ⟨"Visual Studio Code", "/b"⟩
        (fun _ => MechResult.thrown "boom")
        ⟨fun _ => false,
          fun p => if p = "/b/Code/User/snippets/python.json" then some "\x7bbad" else none⟩).1.files =
      (⟨fun _ => false,
        fun p => if p = "/b/Code/User/snippets/python.json" then some "\x7bbad" else none⟩ :
        FS).files) :=
  ⟨rfl, rfl,
    C4_parse_failure_aborts ⟨"N", ["p"], "d", "python"⟩ "x" ⟨"Visual Studio Code", "/b"⟩
      (fun _ => MechResult.thrown "boom") _ "\x7bbad" "Fatal parsing error: boom" rfl rfl⟩

/-- **C5.** The merge binds the new name to the new entry; every other key
keeps exactly its previous value; and the key sequence (hence the insertion
order of pre-existing keys) is preserved, with a fresh name appended at the
end. -/
theorem C5_merge_preserves (m : List (List Char × JVal)) (n : List Char) (e : JVal) :
    lookupLC (mergeSnippets m n e) n = some e ∧
    (∀ k, k ≠ n → lookupLC (mergeSnippets m n e) k = lookupLC m k) ∧
    (mergeSnippets m n e).map Prod.fst =
      (if n ∈ m.map Prod.fst then m.map Prod.fst else m.map Prod.fst ++ [n]) :=
  ⟨lookupLC_mergeSnippets_self m n e,
   fun _ hk => lookupLC_mergeSnippets_other m n e hk,
   keys_mergeSnippets m n e⟩

/-- Witness for **C5** on a concrete two-entry mapping. -/
theorem C5_merge_preserves_witness :
    lookupLC (mergeSnippets [("a".data, JVal.null), ("b".data, JVal.bool false)]
        "b".data (JVal.bool true)) "b".data = some (JVal.bool true) ∧
    ("a".data : List Char) ≠ "b".data ∧
    lookupLC (mergeSnippets [("a".data, JVal.null), ("b".data, JVal.bool false)]
        "b".data (JVal.bool true)) "a".data =
      lookupLC [("a".data, JVal.null), ("b".data, JVal.bool false)] "a".data ∧
    (mergeSnippets [("a".data, JVal.null), ("b".data, JVal.bool false)]
        "b".data (JVal.bool true)).map Prod.fst =
      (if "b".data ∈ ([("a".data, JVal.null), ("b".data, JVal.bool false)].map Prod.fst)
       then [("a".data, JVal.null), ("b".data, JVal.bool false)].map Prod.fst
       else [("a".data, JVal.null), ("b".data, JVal.bool false)].map Prod.fst ++ ["b".data]) :=
  ⟨(C5_merge_preserves _ "b".data (JVal.bool true)).1,
   by decide,
   (C5_merge_preserves _ "b".data (JVal.bool true)).2.1 "a".data (by decide),
   (C5_merge_preserves _ "b".data (JVal.bool true)).2.2⟩

/-- **C6.** Path resolution is the three-way decision on the product name —
exactly "Visual Studio Code" gives "Code"; otherwise containing "Cursor"
gives "Cursor"; otherwise the product name verbatim — and the final path is
`<base>/<folder>/User/snippets/<language>.json` with the language id used
verbatim as the stem. -/
theorem C6_path_resolution (app base lang : String) :
    configFolder ⟨"Visual Studio Code", base⟩ = "Code" ∧
    (app ≠ "Visual Studio Code" → strContains app "Cursor" = true →
      configFolder ⟨app, base⟩ = "Cursor") ∧
    (app ≠ "Visual Studio Code" → strContains app "Cursor" = false →
      configFolder ⟨app, base⟩ = app) ∧
    configFolder ⟨"FooEditor", base⟩ = "FooEditor" ∧
    (base ≠ "" → configFolder ⟨app, base⟩ ≠ "" →
      snippetsPathFor ⟨app, base⟩ lang =
        base ++ "/" ++ configFolder ⟨app, base⟩ ++ "/" ++ "User" ++ "/" ++ "snippets" ++ "/" ++
          (lang ++ ".json")) := by
  refine ⟨rfl, ?_, ?_, rfl, ?_⟩
  · intro hne hc
    simp [configFolder, getEditorInfo, hne, hc]
  · intro hne hc
    simp [configFolder, getEditorInfo, hne, hc]
  · intro hb hf
    simp only [snippetsPathFor, pathJoin]
    rw [List.filter_cons_of_pos (by simpa using hb),
      List.filter_cons_of_pos (by simpa using hf),
      List.filter_cons_of_pos (by decide), List.filter_cons_of_pos (by decide),
      List.filter_cons_of_pos (by simpa using append_json_ne_empty lang)]
    simp only [List.filter_nil, joinSep, String.append_assoc]

/-- Witness for **C6**: a Cursor-variant name, an unknown editor, and the
fully composed path. -/
theorem C6_path_resolution_witness :
    ("Cursor Nightly" : String) ≠ "Visual Studio Code" ∧
    strContains "Cursor Nightly" "Cursor" = true ∧
    configFolder ⟨"Cursor Nightly", "/home/u"⟩ = "Cursor" ∧
    configFolder ⟨"FooEditor", "/home/u"⟩ = "FooEditor" ∧
    snippetsPathFor ⟨"Cursor Nightly", "/home/u"⟩ "python" =
      "/home/u" ++ "/" ++ configFolder ⟨"Cursor Nightly", "/home/u"⟩ ++ "/" ++ "User" ++ "/" ++
        "snippets" ++ "/" ++ ("python" ++ ".json") ∧
    snippetsPathFor ⟨"Cursor Nightly", "/home/u"⟩ "python" =
      "/home/u/Cursor/User/snippets/python.json" :=
  ⟨by decide, by decide,
   (C6_path_resolution "Cursor Nightly" "/home/u" "python").2.1 (by decide) (by decide),
   (C6_path_resolution "FooEditor" "/home/u" "python").2.2.2.1,
   (C6_path_resolution "Cursor Nightly" "/home/u" "python").2.2.2.2 (by decide) (by decide),
   by decide⟩

/-- **C7.** For every well-formed JSON-with-comments input — a value of
strict JSON with optional `//` and `/* */` comments and at most one trailing
comma before a closing brace/bracket (`RendersDoc`) — the modelled mechanism
returns exactly the parsed value with zero reported errors, and the parser
wrapper returns it with a null error report. -/
theorem C7_wellformed_jsonc_parses (v : JVal) (text : String) (h : RendersDoc v text) :
    jsoncParse text = (some v, []) ∧
    parseSnippetsFile text (jsoncMech text) = ⟨some v, none⟩ := by
  have hp := jsoncParse_rendersDoc h
  refine ⟨hp, ?_⟩
  simp only [parseSnippetsFile, jsoncMech, hp]
  rfl

/-- Witness for **C7**: a concrete input with a line comment, layout and a
trailing comma parses to its object with zero errors. -/
theorem C7_wellformed_jsonc_parses_witness :
    RendersDoc (JVal.obj [(['a'], JVal.num ['1'])]) "// c\n\x7b \"a\" : 1, \x7d" ∧
    (jsoncParse "// c\n\x7b \"a\" : 1, \x7d" = (some (JVal.obj [(['a'], JVal.num ['1'])]), []) ∧
      parseSnippetsFile "// c\n\x7b \"a\" : 1, \x7d" (jsoncMech "// c\n\x7b \"a\" : 1, \x7d") =
        ⟨some (JVal.obj [(['a'], JVal.num ['1'])]), none⟩) := by
  have hder : RendersDoc (JVal.obj [(['a'], JVal.num ['1'])]) "// c\n\x7b \"a\" : 1, \x7d" := by
    refine ⟨'/' :: '/' :: ([' ', 'c'] ++ '\n' :: []),
      '{' :: ([' '] ++ ('"' :: (['a', '"'] ++ ([' '] ++ (':' :: ([' '] ++ (['1'] ++
        ([] ++ (',' :: ([' '] ++ ['}'])))))))))),
      [], ?_, ?_, Layout.nil, ?_⟩
    · exact Layout.line (by decide) Layout.nil
    · refine Gram.objNE (Layout.ws (by decide) Layout.nil) ?_ (by simp)
      refine Gram.memLastComma ?_ (Layout.ws (by decide) Layout.nil)
        (Layout.ws (by decide) Layout.nil) (Gram.num ?_) Layout.nil
        (Layout.ws (by decide) Layout.nil)
      · exact StrR.chr (by decide) (by decide) (by decide) StrR.done
      · exact @NumLit.mk [] ['1'] [] [] (Or.inl rfl)
          (IntLit.pos (by decide) (by decide) (by decide)) FracLit.none ExpLit.none
    · decide
  exact ⟨hder, C7_wellformed_jsonc_parses _ _ hder⟩

/-- **C8.** End-to-end: selection `"line1\n\tline2\\end"`, name `"Test"`,
prefixes `"a, b"`, description omitted, language `"python"`, target file
initially absent — the flow collects exactly the expected snippet info, the
save succeeds, the resulting file is the expected JSON object (with the tab
escaped to `\t` and the backslash doubled, 2-space indented), and the parent
directory exists afterwards. -/
theorem C8_end_to_end :
    collectSnippetInfo "python" ⟨some "Test", some "a, b", none, none⟩ =
      some ⟨"Test", ["a", "b"], "Test", "python"⟩ ∧
    (saveSnippet ⟨"Test", ["a", "b"], "Test", "python"⟩ "line1\n\tline2\\end"
        ⟨"Visual Studio Code", "/home/user/.config"⟩ jsoncMech
        ⟨fun _ => false, fun _ => none⟩).2 = none ∧
    (saveSnippet ⟨"Test", ["a", "b"], "Test", "python"⟩ "line1\n\tline2\\end"
        ⟨"Visual Studio Code", "/home/user/.config"⟩ jsoncMech
        ⟨fun _ => false, fun _ => none⟩).1.files
      "/home/user/.config/Code/User/snippets/python.json" =
      some "\x7b\n  \"Test\": \x7b\n    \"prefix\": [\n      \"a\",\n      \"b\"\n    ],\n    \"body\": [\n      \"line1\",\n      \"\\\\tline2\\\\\\\\end\"\n    ],\n    \"description\": \"Test\"\n  \x7d\n\x7d" ∧
    (saveSnippet ⟨"Test", ["a", "b"], "Test", "python"⟩ "line1\n\tline2\\end"
        ⟨"Visual Studio Code", "/home/user/.config"⟩ jsoncMech
        ⟨fun _ => false, fun _ => none⟩).1.dirs
      "/home/user/.config/Code/User/snippets" = true := by
  refine ⟨?_, ?_, ?_, ?_⟩
  · rfl
  · rfl
  · rfl
  · rfl

/-- **C9.** Every snippet entry this program writes has its `prefix` field as
an *array* of strings: on any successful save the written file is the
serialization of a mapping whose entry at the snippet's name is
`newSnippetJ`, whose `prefix` field is the array of the collected prefixes —
never the bare-string alternative that the `SnippetBody` type would also
allow. -/
theorem C9_prefix_always_array (info : SnippetInfo) (sel : String) (env : EditorEnv)
    (mech : String → MechResult) (fs : FS)
    (hok : (saveSnippet info sel env mech fs).2 = none) :
    (∃ kvs, (saveSnippet info sel env mech fs).1.files (snippetsPathFor env info.language) =
        some (String.mk (stringifyVal 0 (JVal.obj kvs))) ∧
      lookupLC kvs info.name.data = some (newSnippetJ info sel)) ∧
    newSnippetJ info sel = JVal.obj
      [("prefix".data, JVal.arr (info.prefixes.map fun p => JVal.str p.data)),
       ("body".data, JVal.arr ((escapeSnippetText sel).map JVal.str)),
       ("description".data, JVal.str info.description.data)] ∧
    (∀ s2, JVal.arr (info.prefixes.map fun p => JVal.str p.data) ≠ JVal.str s2) := by
  refine ⟨?_, rfl, fun s2 h => JVal.noConfusion h⟩
  by_cases hd : fs.dirs (pathDirname (snippetsPathFor env info.language)) = true
  · simp only [saveSnippet, hd, if_true] at hok ⊢
    cases hf : fs.files (snippetsPathFor env info.language) with
    | some c =>
      simp only [hf] at hok ⊢
      cases he : (parseSnippetsFile c (mech c)).error with
      | some err =>
        simp only [he] at hok
        simp at hok
      | none =>
        simp only [he] at hok ⊢
        refine ⟨mergeSnippets
          (spreadObj ((parseSnippetsFile c (mech c)).snippets.getD (JVal.obj [])))
          info.name.data (newSnippetJ info sel), ?_, ?_⟩
        · simp
        · exact lookupLC_mergeSnippets_self _ _ _
    | none =>
      simp only [hf] at hok ⊢
      cases he : (parseSnippetsFile "\x7b\x7d" (mech "\x7b\x7d")).error with
      | some err =>
        simp only [he] at hok
        simp at hok
      | none =>
        simp only [he] at hok ⊢
        refine ⟨mergeSnippets
          (spreadObj ((parseSnippetsFile "\x7b\x7d" (mech "\x7b\x7d")).snippets.getD (JVal.obj [])))
          info.name.data (newSnippetJ info sel), ?_, ?_⟩
        · simp
        · exact lookupLC_mergeSnippets_self _ _ _
  · simp only [saveSnippet, if_neg hd] at hok ⊢
    cases hf : fs.files (snippetsPathFor env info.language) with
    | some c =>
      simp only [hf] at hok ⊢
      cases he : (parseSnippetsFile c (mech c)).error with
      | some err =>
        simp only [he] at hok
        simp at hok
      | none =>
        simp only [he] at hok ⊢
        refine ⟨mergeSnippets
          (spreadObj ((parseSnippetsFile c (mech c)).snippets.getD (JVal.obj [])))
          info.name.data (newSnippetJ info sel), ?_, ?_⟩
        · simp
        · exact lookupLC_mergeSnippets_self _ _ _
    | none =>
      simp only [hf] at hok ⊢
      cases he : (parseSnippetsFile "\x7b\x7d" (mech "\x7b\x7d")).error with
      | some err =>
        simp only [he] at hok
        simp at hok
      | none =>
        simp only [he] at hok ⊢
        refine ⟨mergeSnippets
          (spreadObj ((parseSnippetsFile "\x7b\x7d" (mech "\x7b\x7d")).snippets.getD (JVal.obj [])))
          info.name.data (newSnippetJ info sel), ?_, ?_⟩
        · simp
        · exact lookupLC_mergeSnippets_self _ _ _

/-- Witness for **C9**: a concrete successful save. -/
theorem C9_prefix_always_array_witness :
    (saveSnippet ⟨"W", ["q"], "W", "lua"⟩ "x" ⟨"Visual Studio Code", "/h"⟩ jsoncMech
      ⟨fun _ => false, fun _ => none⟩).2 = none ∧
    ((∃ kvs, (saveSnippet ⟨"W", ["q"], "W", "lua"⟩ "x" ⟨"Visual Studio Code", "/h"⟩ jsoncMech
        ⟨fun _ => false, fun _ => none⟩).1.files
          (snippetsPathFor ⟨"Visual Studio Code", "/h"⟩ "lua") =
        some (String.mk (stringifyVal 0 (JVal.obj kvs))) ∧
      lookupLC kvs "W".data = some (newSnippetJ ⟨"W", ["q"], "W", "lua"⟩ "x")) ∧
    newSnippetJ ⟨"W", ["q"], "W", "lua"⟩ "x" = JVal.obj
      [("prefix".data, JVal.arr ((["q"] : List String).map fun p => JVal.str p.data)),
       ("body".data, JVal.arr ((escapeSnippetText "x").map JVal.str)),
       ("description".data, JVal.str "W".data)] ∧
    (∀ s2, JVal.arr ((["q"] : List String).map fun p => JVal.str p.data) ≠ JVal.str s2)) :=
  ⟨rfl, C9_prefix_always_array ⟨"W", ["q"], "W", "lua"⟩ "x" ⟨"Visual Studio Code", "/h"⟩
    jsoncMech ⟨fun _ => false, fun _ => none⟩ rfl⟩

/-- **C10.** Cancelling the optional description prompt does not abort the
flow: exactly as for an empty response, the stored description defaults to
the snippet name and the flow proceeds to language resolution (the outcome
is determined solely by `determineLanguage`). -/
theorem C10_description_optional (docLang : String) (r : PromptResponses) (nm pi : String)
    (hname : r.name = some nm) (hnm : nm ≠ "") (hpre : r.prefixInput = some pi) (hpi : pi ≠ "")
    (hdesc : r.description = none ∨ r.description = some "") :
    collectSnippetInfo docLang r =
      (determineLanguage docLang r.language).map fun lang =>
        { name := nm, prefixes := parsePrefixes pi, description := nm, language := lang } := by
  unfold collectSnippetInfo
  rw [hname, hpre]
  simp only [truthyStr, if_neg hnm, if_neg hpi]
  rcases hdesc with h1 | h1 <;> rw [h1] <;> (cases determineLanguage docLang r.language <;> simp)

/-- Witness for **C10**: a cancelled description prompt defaults to the
name and the flow continues into language resolution. -/
theorem C10_description_optional_witness :
    ("N" : String) ≠ "" ∧
    collectSnippetInfo "" ⟨some "N", some "a", none, some "LUA"⟩ =
      (determineLanguage "" (some "LUA")).map fun lang =>
        { name := "N", prefixes := parsePrefixes "a", description := "N", language := lang } :=
  ⟨by decide,
   C10_description_optional "" ⟨some "N", some "a", none, some "LUA"⟩ "N" "a"
     rfl (by decide) rfl (by decide) (Or.inl rfl)⟩
